import Mathlib

/-
Verification development for the arXiv paper-graph backend.

The definitions below are a shallow embedding of the Python source in
`backend/main.py` (and, where noted, of collaborator contracts used by it):

* `canonicalize_paper_id`, `extract_paper_id` embed the identity
  canonicalizer (main.py lines 186-205); Python strings are modelled as
  `List Char` and each Python string primitive used by the source
  (`strip`, `split(sep)[-1]`, `rstrip`, `replace`, `lower`, `startswith`,
  `rpartition`, `isdigit`) is modelled by a dedicated function.
* `buildLinks` and its auxiliaries embed the k-nearest-neighbor link
  construction loop (main.py lines 459-479; the loop at lines 660-680 of
  `get_session` is textually identical and is embedded by the same
  definition).  Python floats are modelled by an abstract linearly ordered
  ring; the similarity function is a parameter, since `cosine_similarity`
  is a collaborator import.  Python `list.sort(key=..., reverse=True)` is a
  stable descending sort; it is modelled by the stable insertion sort
  `sortDesc`, whose output is proved to be the unique permutation sorted by
  descending key with ties in original order.
* `generate_graph_internal` embeds `_generate_graph_internal`
  (main.py lines 332-489): the discovery outcomes, metadata map and
  embedding outcome are parameters standing for the awaited collaborator
  calls; a raised exception is modelled by the `Except.error` / `none` case
  exactly where the source catches one.
* `upsert_graph_paper` embeds the `update_one(..., upsert=True)` call with
  `$set` / `$setOnInsert` (main.py lines 441-457), using the documented
  MongoDB semantics: update the matching document if present (preserving
  `created_at`), otherwise insert a fresh document with both timestamps.
  The store is modelled as an insertion-ordered list of documents.
* `get_session_graph` embeds the graph-reconstruction part of
  `get_session` (main.py lines 630-688); the `$in` query is modelled as a
  filter over the insertion-ordered store.
* `runPersist` embeds the persistence sequence of `create_session`
  (main.py lines 546-564): one session insert followed by one junction-row
  insert per node, executed strictly in order with no transaction; a write
  failure at position `k` leaves exactly the writes before `k` committed
  and propagates.
* `cosine_similarity` is imported by main.py from `papers` but its
  definition is not part of the provided sources; it is modelled from the
  spec over the reals.
-/

namespace ArxivGraph

/-! ## Python string primitives, modelled over `List Char` -/

theorem length_dropWhile_le (p : Char → Bool) (l : List Char) :
    (l.dropWhile p).length ≤ l.length := by
  induction l with
  | nil => simp
  | cons c t ih =>
    cases h : p c <;> simp [List.dropWhile, h] <;> omega

/-- Structural worker for `words`; the fuel is an upper bound on the
input length, so it is never exhausted when called through `words`. -/
def wordsAux : ℕ → List Char → List (List Char)
  | _, [] => []
  | 0, _ :: _ => []
  | n + 1, c :: rest =>
    if c.isWhitespace then wordsAux n rest
    else (c :: rest.takeWhile (fun d => !d.isWhitespace)) ::
          wordsAux n (rest.dropWhile (fun d => !d.isWhitespace))

/-- Model of Python `str.split()` (split on whitespace runs, no empty parts). -/
def words (s : List Char) : List (List Char) := wordsAux s.length s

/-- Model of `normalize_whitespace` (main.py line 113): collapse every
whitespace run to a single space and trim the ends. -/
def normalize_whitespace (s : String) : String :=
  ⟨List.intercalate [' '] (words s.data)⟩

/-- Model of Python `str.strip()` on character lists. -/
def stripChars (s : List Char) : List Char :=
  ((s.dropWhile Char.isWhitespace).reverse.dropWhile Char.isWhitespace).reverse

/-- Model of Python `str.strip()` on `String`. -/
def pyStrip (s : String) : String := ⟨stripChars s.data⟩

/-- Model of Python `x or default` for strings (empty string is falsy). -/
def orDefault (s d : String) : String := if s = "" then d else s

/-- Model of Python `x or None` for strings. -/
def optOfStr (s : String) : Option String := if s = "" then none else some s

/-- Model of Python `a or b` where `a b : Option String` (both `None` and
the empty string are falsy). -/
def pyOr (a b : Option String) : Option String :=
  match a with
  | some s => if s = "" then b else some s
  | none => b

def absPat : List Char := ['/', 'a', 'b', 's', '/']

def pdfPat : List Char := ['/', 'p', 'd', 'f', '/']

def dotPdf : List Char := ['.', 'p', 'd', 'f']

def arxivColon : List Char := ['a', 'r', 'x', 'i', 'v', ':']

/-- Model of Python `pat in s` (substring containment). -/
def hasSubstr (pat : List Char) : List Char → Bool
  | [] => pat.isEmpty
  | c :: rest => pat.isPrefixOf (c :: rest) || hasSubstr pat rest

/-- The text after the first (leftmost) occurrence of `pat`, if any. -/
def splitAfterFirst (pat : List Char) : List Char → Option (List Char)
  | [] => none
  | c :: rest =>
    if pat.isPrefixOf (c :: rest) then some ((c :: rest).drop pat.length)
    else splitAfterFirst pat rest

/-- Structural worker for `lastSegment`; a nonempty pattern consumes at
least one character per iteration, so fuel `s.length` always suffices. -/
def lastSegmentAux (pat : List Char) : ℕ → List Char → List Char
  | 0, s => s
  | n + 1, s =>
    match splitAfterFirst pat s with
    | none => s
    | some r => lastSegmentAux pat n r

/-- Model of Python `s.split(pat)[-1]` for nonempty `pat`: the text after
the last non-overlapping occurrence of `pat`, scanning from the left (all
of `s` when `pat` does not occur). -/
def lastSegment (pat : List Char) (s : List Char) : List Char :=
  lastSegmentAux pat s.length s

/-- Model of Python `s.rstrip("/")`: drop every trailing slash. -/
def rstripSlash (s : List Char) : List Char :=
  (s.reverse.dropWhile (fun c => c == '/')).reverse

/-- Structural worker for `removeAll`. -/
def removeAllAux (pat : List Char) : ℕ → List Char → List Char
  | _, [] => []
  | 0, s => s
  | n + 1, c :: rest =>
    if pat.isPrefixOf (c :: rest) then removeAllAux pat n ((c :: rest).drop pat.length)
    else c :: removeAllAux pat n rest

/-- Model of Python `s.replace(pat, "")` for nonempty `pat`: delete every
non-overlapping occurrence of `pat`, scanning from the left. -/
def removeAll (pat : List Char) (s : List Char) : List Char :=
  removeAllAux pat s.length s

/-- Model of Python `s.lower()` (ASCII case folding suffices for the ids
involved). -/
def lowerChars (s : List Char) : List Char := s.map Char.toLower

/-- Model of Python `s.split(":", maxsplit=1)[1]`: the text after the first
colon (used by the source only when a colon is known to be present). -/
def afterFirstColon : List Char → List Char
  | [] => []
  | c :: rest => if c = ':' then rest else afterFirstColon rest

/-- Model of Python `s.rpartition("v")` restricted to what the source
consumes: `some (base, suffix)` splitting at the last `v`, `none` when no
`v` occurs. -/
def rpartV : List Char → Option (List Char × List Char)
  | [] => none
  | c :: rest =>
    match rpartV rest with
    | some (b, suf) => some (c :: b, suf)
    | none => if c = 'v' then some ([], rest) else none

/-- Model of Python `s.isdigit()` (over the ASCII ids the source handles):
nonempty and all decimal digits. -/
def allDigits (s : List Char) : Bool := !s.isEmpty && s.all Char.isDigit

/-- Embedding of `extract_paper_id` (main.py lines 186-192). -/
def extract_paper_id (link : List Char) : List Char :=
  if hasSubstr absPat link then rstripSlash (lastSegment absPat link)
  else if hasSubstr pdfPat link then
    removeAll dotPdf (lastSegment pdfPat link)
  else link

/-- Embedding of `canonicalize_paper_id` (main.py lines 195-205). -/
def canonicalize_paper_id (value : List Char) : List Char :=
  let p1 := extract_paper_id (stripChars value)
  let p2 := if arxivColon.isPrefixOf (lowerChars p1) then afterFirstColon p1 else p1
  let p3 :=
    match rpartV p2 with
    | some (base, suffix) => if base ≠ [] ∧ allDigits suffix = true then base else p2
    | none => p2
  stripChars p3

/-- `canonicalize_paper_id` lifted to `String`, used where node ids are
built from URLs (`extract_reference_paper_id`). -/
def canonIdStr (s : String) : String := ⟨canonicalize_paper_id s.data⟩

/-! ### Claim-side and amended canonicalization rules -/

def endsWithChars (suffix s : List Char) : Bool := suffix.reverse.isPrefixOf s.reverse

/-- Strip one trailing slash, or else one trailing `.pdf` suffix. -/
def stripTrailOnce (s : List Char) : List Char :=
  if endsWithChars ['/'] s then s.take (s.length - 1)
  else if endsWithChars dotPdf s then s.take (s.length - 4)
  else s

/-- Modelled from the claim wording: rule (a) takes everything after an
`/abs/` or `/pdf/` segment and strips a trailing slash or a `.pdf`
suffix; rule (b) strips a case-insensitive `arxiv:` prefix; rule (c)
strips a trailing `vN` suffix with `N` all digits; otherwise the input is
returned unchanged. -/
def canonClaim (value : List Char) : List Char :=
  let s1 :=
    if hasSubstr absPat value then stripTrailOnce (lastSegment absPat value)
    else if hasSubstr pdfPat value then stripTrailOnce (lastSegment pdfPat value)
    else value
  let s2 := if arxivColon.isPrefixOf (lowerChars s1) then s1.drop 6 else s1
  match rpartV s2 with
  | some (base, suffix) => if allDigits suffix = true then base else s2
  | none => s2

/-- Drop leading whitespace. -/
def trimLead (s : List Char) : List Char := s.dropWhile Char.isWhitespace

/-- Drop trailing whitespace (direct recursion, used by the amended rule
statement and proved equal to the reverse-based `stripChars`). -/
def trimTrail : List Char → List Char
  | [] => []
  | c :: rest =>
    match trimTrail rest with
    | [] => if c.isWhitespace then [] else [c]
    | r => c :: r

/-- Drop every trailing slash (direct recursion, proved equal to
`rstripSlash`). -/
def dropTrailSlashes : List Char → List Char
  | [] => []
  | c :: rest =>
    match dropTrailSlashes rest with
    | [] => if c = '/' then [] else [c]
    | r => c :: r

/-- The amended canonicalization rules: trim surrounding whitespace; after
an `/abs/` segment drop all trailing slashes, after a `/pdf/` segment
delete every occurrence of `.pdf`; strip a case-insensitive `arxiv:`
prefix; drop a final `vN` (nonempty base, `N` nonempty all-digit); trim
whitespace again. -/
def canonAmended (value : List Char) : List Char :=
  let t := trimTrail (trimLead value)
  let s1 :=
    if hasSubstr absPat t then dropTrailSlashes (lastSegment absPat t)
    else if hasSubstr pdfPat t then
      removeAll dotPdf (lastSegment pdfPat t)
    else t
  let s2 := if arxivColon.isPrefixOf (lowerChars s1) then afterFirstColon s1 else s1
  let s3 :=
    match rpartV s2 with
    | some (base, suffix) => if base ≠ [] ∧ allDigits suffix = true then base else s2
    | none => s2
  trimTrail (trimLead s3)

/-! ## Graph data model -/

/-- Embedding of the `GraphNode` pydantic model (main.py lines 68-77). -/
structure GraphNode where
  id : String
  label : String
  content : String
  url : Option String
  published : Option String
  authors : List String
  summary : String
  is_root : Bool
deriving DecidableEq

/-- Embedding of the `GraphLink` pydantic model (main.py lines 79-82);
every link the source builds carries a similarity, so the field is not
optional here. -/
structure GraphLink (α : Type) where
  source : String
  target : String
  similarity : α
deriving DecidableEq

/-- Embedding of the `GraphResponse` pydantic model (main.py lines 85-90). -/
structure GraphResponse (α : Type) where
  seed_id : String
  nodes : List GraphNode
  links : List (GraphLink α)
  partial_data : Bool
  references_error : Option String
deriving DecidableEq

/-- The `node_embeddings` dict, modelled as an insertion-ordered
association list with unique keys. -/
abbrev EmbMap (α : Type) := List (String × List α)

/-- Dict lookup (`m[k]` and `k in m`). -/
def embLookup {α : Type} (m : EmbMap α) (k : String) : Option (List α) :=
  match m with
  | [] => none
  | p :: rest => if p.1 = k then some p.2 else embLookup rest k

/-- Dict assignment `m[k] = v`: overwrite the existing binding or append a
new one, as a Python dict does. -/
def dictInsert {α : Type} (m : EmbMap α) (k : String) (v : List α) : EmbMap α :=
  match m with
  | [] => [(k, v)]
  | p :: rest => if p.1 = k then (k, v) :: rest else p :: dictInsert rest k v

/-- The dict built by `for node, emb in zip(nodes, embeddings):
node_embeddings[node.id] = emb` (main.py lines 433-435). -/
def buildEmbMap {α : Type} (nodes : List GraphNode) (embs : List (List α)) : EmbMap α :=
  (nodes.zip embs).foldl (fun m p => dictInsert m p.1.id p.2) []

variable {α : Type} [LinearOrderedRing α] [FloorRing α] [Div α]

/-- Model of Python `round(sim, 4)`: round to four decimal places. -/
def round4 (x : α) : α := ((round (x * 10000) : ℤ) : α) / 10000

/-- Lexicographic comparison of character lists by code point, the order
Python uses to compare strings. -/
def lexLe : List Char → List Char → Bool
  | [], _ => true
  | _ :: _, [] => false
  | a :: as, b :: bs =>
    if a.toNat < b.toNat then true
    else if b.toNat < a.toNat then false
    else lexLe as bs

/-- Python string `<=` (lexicographic by code point). -/
def strLe (a b : String) : Bool := lexLe a.data b.data

/-- Model of `tuple(sorted((a, b)))` on two strings (main.py line 476). -/
def keyOf (a b : String) : String × String := if strLe a b then (a, b) else (b, a)

/-- The unordered dedup key of a link. -/
def linkKey (l : GraphLink α) : String × String := keyOf l.source l.target

/-- How many links of `ls` carry the unordered endpoint pair `K`. -/
def countKey (ls : List (GraphLink α)) (K : String × String) : ℕ :=
  ls.countP (fun l => decide (linkKey l = K))

/-- `nodes[j].id`, with a dummy value out of range (the source only indexes
in range). -/
def nodeIdAt (nodes : List GraphNode) (j : ℕ) : String :=
  (nodes[j]?.map GraphNode.id).getD ""

/-- Stable descending insertion: place `x` before the first element whose
key is not larger, so that among equal keys earlier-inserted elements come
first. -/
def insertDesc (x : ℕ × α) : List (ℕ × α) → List (ℕ × α)
  | [] => [x]
  | y :: ys => if y.2 ≤ x.2 then x :: y :: ys else y :: insertDesc x ys

/-- Model of `similarities.sort(key=lambda x: x[1], reverse=True)`: a
stable sort by descending second component.  Stability is what the proofs
establish: on an input whose first components are strictly increasing the
output is the unique permutation sorted by descending key with ties broken
by the first component, which is exactly the specified behavior of the
Python stable sort. -/
def sortDesc : List (ℕ × α) → List (ℕ × α)
  | [] => []
  | x :: xs => insertDesc x (sortDesc xs)

/-- The `similarities` list collected for node `i` (main.py lines 468-473):
the pairs `(j, simf ea eb)` for every other node `j` that has an
embedding, in input order. -/
def simsFor (simf : List α → List α → α) (m : EmbMap α) (nodes : List GraphNode)
    (i : ℕ) (ea : List α) : List (ℕ × α) :=
  nodes.enum.filterMap (fun p =>
    if p.1 = i then none
    else
      match embLookup m p.2.id with
      | none => none
      | some eb => some (p.1, simf ea eb))

/-- The top `K_NEIGHBORS = 3` of the stable descending ranking
(`similarities[:K_NEIGHBORS]`, main.py line 475). -/
def selects (simf : List α → List α → α) (m : EmbMap α) (nodes : List GraphNode)
    (i : ℕ) (ea : List α) : List (ℕ × α) :=
  (sortDesc (simsFor simf m nodes i ea)).take 3

/-- One iteration of the inner dedup loop (main.py lines 475-479): add a
link for selected neighbor `q` unless its unordered key was already seen. -/
def selStep (nodes : List GraphNode) (aid : String)
    (st : List (GraphLink α) × List (String × String)) (q : ℕ × α) :
    List (GraphLink α) × List (String × String) :=
  if keyOf aid (nodeIdAt nodes q.1) ∈ st.2 then st
  else (st.1 ++ [⟨aid, nodeIdAt nodes q.1, round4 q.2⟩],
        keyOf aid (nodeIdAt nodes q.1) :: st.2)

/-- One iteration of the outer loop (main.py lines 465-479): skip nodes
without an embedding, otherwise rank, select and dedup. -/
def nodeStep (simf : List α → List α → α) (m : EmbMap α) (nodes : List GraphNode)
    (st : List (GraphLink α) × List (String × String)) (p : ℕ × GraphNode) :
    List (GraphLink α) × List (String × String) :=
  match embLookup m p.2.id with
  | none => st
  | some ea => (selects simf m nodes p.1 ea).foldl (selStep nodes p.2.id) st

/-- The full fold of the link loop over `enumerate(nodes)`. -/
def linkFold (simf : List α → List α → α) (m : EmbMap α) (nodes : List GraphNode) :
    List (GraphLink α) × List (String × String) :=
  nodes.enum.foldl (nodeStep simf m nodes) ([], [])

/-- Embedding of the k-nearest-neighbor link builder (main.py lines
459-479, and identically lines 660-680): guarded by `if node_embeddings:`. -/
def buildLinks (simf : List α → List α → α) (m : EmbMap α) (nodes : List GraphNode) :
    List (GraphLink α) :=
  if m.isEmpty then [] else (linkFold simf m nodes).1

/-- The strict ranking order the stable sort realizes on candidate lists
with distinct original positions: larger similarity first, ties broken by
smaller original position. -/
def lexGt (p q : ℕ × α) : Prop := q.2 < p.2 ∨ (p.2 = q.2 ∧ p.1 < q.1)

/-- A link is justified when some embedded node `i` selected neighbor `j`
in its top-3 and the link records exactly that pair and rounded
similarity. -/
def Justified (simf : List α → List α → α) (m : EmbMap α) (nodes : List GraphNode)
    (l : GraphLink α) : Prop :=
  ∃ i a ea j s, nodes[i]? = some a ∧ embLookup m a.id = some ea ∧
    (j, s) ∈ selects simf m nodes i ea ∧
    l = ⟨a.id, nodeIdAt nodes j, round4 s⟩

/-- The loop invariant of the dedup fold: every accumulated link is
justified, the seen-set is exactly the set of keys of accumulated links,
and accumulated keys are distinct. -/
def LinkInv (simf : List α → List α → α) (m : EmbMap α) (nodes : List GraphNode)
    (st : List (GraphLink α) × List (String × String)) : Prop :=
  (∀ l ∈ st.1, Justified simf m nodes l) ∧
  (∀ k, k ∈ st.2 ↔ ∃ l ∈ st.1, linkKey l = k) ∧
  (st.1.map linkKey).Nodup

/-! ## Cosine similarity (modelled from the spec) -/

/-- Dot product of two float vectors, modelled over the reals. -/
def dotP (u v : List ℝ) : ℝ := (List.zipWith (fun a b => a * b) u v).sum

/-- Modelled from the spec: `cosine_similarity` is imported by main.py
from the `papers` module but its definition is not among the provided
sources.  Per the spec it is `dot(A,B) / (‖A‖·‖B‖)`, defined as `0` when
either norm is `0`, and it never raises or produces NaN (totality of this
real-valued function). -/
noncomputable def cosine_similarity (u v : List ℝ) : ℝ :=
  if Real.sqrt (dotP u u) = 0 ∨ Real.sqrt (dotP v v) = 0 then 0
  else dotP u v / (Real.sqrt (dotP u u) * Real.sqrt (dotP v v))

/-! ## Node construction from metadata -/

/-- The metadata dict returned by `fetch_arxiv_paper` /
`fetch_arxiv_papers_batch` (title, url, published, authors, summary). -/
structure PaperMeta where
  title : String
  url : String
  published : String
  authors : List String
  summary : String
deriving DecidableEq

/-- Embedding of `build_root_node` (main.py lines 208-226). -/
def build_root_node (paper_id : String) (p : PaperMeta) : GraphNode :=
  let summary := normalize_whitespace (pyStrip p.summary)
  { id := paper_id
    label := orDefault (normalize_whitespace (pyStrip p.title)) paper_id
    content := orDefault summary ("arXiv paper " ++ paper_id)
    url := some (orDefault (normalize_whitespace (pyStrip p.url))
      ("https://arxiv.org/abs/" ++ paper_id))
    published := optOfStr (normalize_whitespace (pyStrip p.published))
    authors := (p.authors.filter (fun a => !(pyStrip a == ""))).map normalize_whitespace
    summary := summary
    is_root := true }

/-- A discovery candidate produced by `find_similar_papers_via_search`:
a dict with an `arxiv_id` key and possibly a `title` key. -/
structure DiscCand where
  arxiv_id : String
  title : Option String
deriving DecidableEq

/-- The node built for a grounding-mode candidate (main.py lines
382-406): from batch metadata when available, otherwise from the
candidate itself. -/
def discoveredNode (d : DiscCand) (meta : Option PaperMeta) : GraphNode :=
  match meta with
  | some m =>
    let summary := normalize_whitespace (pyStrip m.summary)
    { id := d.arxiv_id
      label := orDefault (normalize_whitespace (pyStrip m.title)) d.arxiv_id
      content := orDefault summary ("Related paper " ++ d.arxiv_id)
      url := some (orDefault (normalize_whitespace (pyStrip m.url))
        ("https://arxiv.org/abs/" ++ d.arxiv_id))
      published := optOfStr (normalize_whitespace (pyStrip m.published))
      authors := (m.authors.filter (fun a => !(pyStrip a == ""))).map normalize_whitespace
      summary := summary
      is_root := false }
  | none =>
    { id := d.arxiv_id
      label := d.title.getD d.arxiv_id
      content := "Related paper " ++ d.arxiv_id
      url := some ("https://arxiv.org/abs/" ++ d.arxiv_id)
      published := none
      authors := []
      summary := ""
      is_root := false }

/-- One iteration of the grounding dedup loop (main.py lines 377-407). -/
def groundingStep (root : GraphNode) (metaMap : String → Option PaperMeta)
    (st : List GraphNode × List String) (d : DiscCand) :
    List GraphNode × List String :=
  if d.arxiv_id ∈ st.2 ∨ d.arxiv_id = root.id then st
  else (st.1 ++ [discoveredNode d (metaMap d.arxiv_id)], st.2 ++ [d.arxiv_id])

/-- The grounding-mode node list: seed node first, then deduplicated
discovered candidates in order. -/
def groundingLoop (root : GraphNode) (cands : List DiscCand)
    (metaMap : String → Option PaperMeta) : List GraphNode :=
  (cands.foldl (groundingStep root metaMap) ([root], [root.id])).1

/-- A reference record returned by `fetch_references` (after optional
enrichment): title, optional urls/metadata. -/
structure RefEntry where
  title : String
  url : Option String
  arxiv_url : Option String
  published : Option String
  authors : List String
  summary : Option String
deriving DecidableEq

/-- Embedding of `extract_reference_paper_id` (main.py lines 297-302). -/
def extract_reference_paper_id (r : RefEntry) : Option String :=
  match pyOr r.url r.arxiv_url with
  | none => none
  | some u =>
    if pyStrip u = "" then none
    else if canonIdStr u = "" then none else some (canonIdStr u)

/-- Embedding of `build_reference_node` (main.py lines 305-329). -/
def build_reference_node (r : RefEntry) : Option GraphNode :=
  match extract_reference_paper_id r with
  | none => none
  | some pid =>
    let summary := normalize_whitespace (pyStrip (r.summary.getD ""))
    some
      { id := pid
        label := orDefault (normalize_whitespace (pyStrip r.title)) pid
        content := orDefault summary ("Referenced paper " ++ pid)
        url := some (orDefault (normalize_whitespace (pyStrip ((pyOr r.url r.arxiv_url).getD "")))
          ("https://arxiv.org/abs/" ++ pid))
        published := optOfStr (normalize_whitespace (pyStrip (r.published.getD "")))
        authors := (r.authors.filter (fun a => !(pyStrip a == ""))).map normalize_whitespace
        summary := summary
        is_root := false }

/-- One iteration of the references dedup loop (main.py lines 417-423). -/
def referencesStep (root : GraphNode) (st : List GraphNode × List String)
    (r : RefEntry) : List GraphNode × List String :=
  match build_reference_node r with
  | none => st
  | some node =>
    if node.id = root.id then st
    else if node.id ∈ st.2 then st
    else (st.1 ++ [node], st.2 ++ [node.id])

/-- The references-mode node list. -/
def referencesLoop (root : GraphNode) (refs : List RefEntry) : List GraphNode :=
  (refs.foldl (referencesStep root) ([root], [root.id])).1

/-! ## Error taxonomy for the references discovery path -/

/-- The exception classes caught around `fetch_references` (main.py line
414 catches `httpx.HTTPError` and `ET.ParseError`; `HTTPStatusError` and
`TimeoutException` are subclasses of `HTTPError`). -/
inductive RefExc where
  | httpStatus (status : ℕ) (retryAfter : Option String)
  | timeout
  | httpOther
  | parse
deriving DecidableEq

/-- Embedding of `summarize_references_error` (main.py lines 272-294) on
the catchable exception classes. -/
def summarize_references_error (e : RefExc) : String :=
  match e with
  | .httpStatus status retryAfter =>
    if status = 429 then
      match retryAfter with
      | some ra =>
        if ra = "" then "Semantic Scholar rate limit reached (HTTP 429). Try again shortly."
        else "Semantic Scholar rate limit reached (HTTP 429). Retry-After: " ++ ra ++ "."
      | none => "Semantic Scholar rate limit reached (HTTP 429). Try again shortly."
    else "Semantic Scholar request failed with HTTP " ++ toString status ++ "."
  | .timeout => "Timed out while fetching references from Semantic Scholar."
  | .httpOther => "Failed to fetch references from Semantic Scholar."
  | .parse => "Failed to parse reference metadata from arXiv."

/-! ## Paper store -/

/-- A `graph_papers` document (main.py lines 441-457); every document
written by the source carries an embedding.  Timestamps are modelled as
naturals. -/
structure StoredPaper (α : Type) where
  arxiv_id : String
  title : String
  summary : String
  url : Option String
  authors : List String
  published : String
  embedding : List α
  created_at : ℕ
  updated_at : ℕ
deriving DecidableEq

/-- The document inserted on first upsert (`$set` plus `$setOnInsert`). -/
def freshPaper (node : GraphNode) (emb : List α) (now : ℕ) : StoredPaper α :=
  { arxiv_id := node.id
    title := node.label
    summary := node.summary
    url := node.url
    authors := node.authors
    published := node.published.getD ""
    embedding := emb
    created_at := now
    updated_at := now }

/-- Embedding of the `update_one(..., upsert=True)` call on `graph_papers`
(main.py lines 442-457), with the documented MongoDB semantics: update the
first matching document (overwriting metadata and embedding, bumping only
`updated_at`), or insert a fresh document.  The store is an
insertion-ordered list. -/
def upsert_graph_paper (node : GraphNode) (emb : List α) (now : ℕ) :
    List (StoredPaper α) → List (StoredPaper α)
  | [] => [freshPaper node emb now]
  | p :: rest =>
    if p.arxiv_id = node.id then
      { p with title := node.label, summary := node.summary, url := node.url,
               authors := node.authors, published := node.published.getD "",
               embedding := emb, updated_at := now } :: rest
    else p :: upsert_graph_paper node emb now rest

/-- Lookup of a stored paper by canonical id. -/
def storeLookup (store : List (StoredPaper α)) (k : String) : Option (StoredPaper α) :=
  match store with
  | [] => none
  | p :: rest => if p.arxiv_id = k then some p else storeLookup rest k

/-! ## The full graph build -/

/-- The two discovery modes. -/
inductive Mode where
  | grounding
  | references
deriving DecidableEq

/-- Embedding of `_generate_graph_internal` (main.py lines 332-489) after
the seed paper has been fetched.  Awaited collaborator calls appear as
parameters: `groundRes` is the outcome of `find_similar_papers_via_search`
(`Except.error` models the caught exception, main.py lines 363-366),
`metaMap` the batch-metadata map (empty on batch failure), `refRes` the
outcome of `fetch_references` (main.py lines 412-415), and `embRes` the
outcome of `generate_embeddings_batch` (`none` models the caught
exception, which the source turns into an empty embedding list, main.py
lines 427-430).  Returns the response and the updated paper store. -/
def generate_graph_internal (mode : Mode) (paper_id : String) (seed : PaperMeta)
    (groundRes : Except String (List DiscCand))
    (metaMap : String → Option PaperMeta)
    (refRes : Except RefExc (List RefEntry))
    (embRes : Option (List (List α)))
    (simf : List α → List α → α)
    (store : List (StoredPaper α)) (now : ℕ) :
    GraphResponse α × List (StoredPaper α) :=
  let root := build_root_node paper_id seed
  let discovery :=
    match mode with
    | .grounding =>
      match groundRes with
      | .ok cands => (groundingLoop root cands metaMap, (none : Option String))
      | .error e =>
        (groundingLoop root [] metaMap, some ("Google Search grounding failed: " ++ e))
    | .references =>
      match refRes with
      | .ok refs => (referencesLoop root refs, none)
      | .error exc => (referencesLoop root [], some (summarize_references_error exc))
  let nodes := discovery.1
  let embeddings := embRes.getD []
  let node_embeddings := buildEmbMap nodes embeddings
  let store1 := (nodes.zip embeddings).foldl
    (fun s p => upsert_graph_paper p.1 p.2 now s) store
  ({ seed_id := root.id
     nodes := nodes
     links := buildLinks simf node_embeddings nodes
     partial_data := discovery.2.isSome
     references_error := discovery.2 }, store1)

/-! ## Session reload -/

/-- The node rebuilt from a stored paper document (main.py lines 645-655). -/
def storedNode (seedId : String) (p : StoredPaper α) : GraphNode :=
  { id := p.arxiv_id
    label := p.title
    content := p.summary
    url := p.url
    published := some p.published
    authors := p.authors
    summary := p.summary
    is_root := decide (p.arxiv_id = seedId) }

/-- Embedding of the graph reconstruction in `get_session` (main.py lines
630-688): the `$in` query returns the store documents whose id belongs to
the session, in store (insertion) order; nodes and the embedding map are
rebuilt from them and the identical link loop is re-run.  No discovery or
embedding parameter appears: the reload computes from stored data only. -/
def get_session_graph (store : List (StoredPaper α)) (seedId : String)
    (memberIds : List String) (simf : List α → List α → α) : GraphResponse α :=
  let docs := store.filter (fun p => decide (p.arxiv_id ∈ memberIds))
  let nodes := docs.map (storedNode seedId)
  let m := docs.foldl (fun m p => dictInsert m p.arxiv_id p.embedding) []
  { seed_id := seedId
    nodes := nodes
    links := buildLinks simf m nodes
    partial_data := false
    references_error := none }

/-! ## Session persistence (create_session) -/

/-- The sequence of awaited store writes in `create_session` (main.py
lines 554-564): the session insert, then one junction-row insert per
node. -/
inductive WriteOp where
  | session
  | row (arxiv_id : String)
deriving DecidableEq

/-- The committed state after a prefix of the writes. -/
structure PersistState where
  sessionWritten : Bool
  rows : List String
deriving DecidableEq

def applyWrite (st : PersistState) : WriteOp → PersistState
  | .session => { st with sessionWritten := true }
  | .row i => { st with rows := st.rows ++ [i] }

def sessionWrites (nodeIds : List String) : List WriteOp :=
  .session :: nodeIds.map .row

/-- Execute the persistence sequence; `failAt = some k` means the `k`-th
write raises: the writes before it are already committed (no transaction
wraps them in the source) and the exception propagates (second component
`true`) whenever `k` is within the sequence. -/
def runPersist (nodeIds : List String) (failAt : Option ℕ) : PersistState × Bool :=
  let ops := sessionWrites nodeIds
  match failAt with
  | none => (ops.foldl applyWrite ⟨false, []⟩, false)
  | some k => ((ops.take k).foldl applyWrite ⟨false, []⟩, decide (k < ops.length))

/-- The claim-side all-or-nothing property: either the session and every
junction row are committed, or nothing is. -/
def allOrNothing (nodeIds : List String) (st : PersistState) : Prop :=
  (st.sessionWritten = true ∧ st.rows = nodeIds) ∨
  (st.sessionWritten = false ∧ st.rows = [])

/-! ## Concrete instances used to exercise the generic theorems -/

/-- A concrete integer-valued similarity function (dot product), used to
instantiate the link-builder theorems on executable inputs. -/
def simZ : List ℤ → List ℤ → ℤ :=
  fun u v => (List.zipWith (fun a b => a * b) u v).sum

def nodeA : GraphNode := ⟨"1111.0001", "A", "", none, none, [], "", true⟩

def nodeB : GraphNode := ⟨"1111.0002", "B", "", none, none, [], "", false⟩

def nodeC : GraphNode := ⟨"1111.0003", "C", "", none, none, [], "", false⟩

def embZ : EmbMap ℤ := [("1111.0001", [1, 0]), ("1111.0002", [1, 1])]

/-- A seed-paper metadata record used by the concrete pipeline runs. -/
def seedMetaX : PaperMeta := ⟨"Seed title", "http://example/abs/r", "2020", ["A B"], "Seed summary"⟩

/-- A concrete build whose candidate paper is already present in the paper
store: the discovery step returns candidate `c`, both nodes embed, and the
store previously held a document for `c`. -/
def buildX : GraphResponse ℤ × List (StoredPaper ℤ) :=
  generate_graph_internal .grounding "r" seedMetaX (.ok [⟨"c", some "C title"⟩])
    (fun _ => none) (.error .timeout) (some [[1], [1]]) simZ
    [⟨"c", "old title", "", none, [], "", [1], 0, 0⟩] 5

/-! ## Lemmas: the string order and unordered keys -/

theorem lexLe_total (a b : List Char) : lexLe a b = true ∨ lexLe b a = true := by
  induction a generalizing b with
  | nil => left; rfl
  | cons c cs ih =>
    cases b with
    | nil => right; rfl
    | cons d ds =>
      rcases Nat.lt_trichotomy c.toNat d.toNat with h | h | h
      · left; simp [lexLe, h]
      · rcases ih ds with h' | h' <;> [left; right] <;> simp [lexLe, h, h']
      · right; simp [lexLe, h, Nat.lt_asymm h]

theorem char_toNat_inj {c d : Char} (h : c.toNat = d.toNat) : c = d := by
  apply Char.ext
  exact UInt32.ext h

theorem lexLe_antisymm {a b : List Char} (h1 : lexLe a b = true)
    (h2 : lexLe b a = true) : a = b := by
  induction a generalizing b with
  | nil =>
    cases b with
    | nil => rfl
    | cons d ds => simp [lexLe] at h2
  | cons c cs ih =>
    cases b with
    | nil => simp [lexLe] at h1
    | cons d ds =>
      rcases Nat.lt_trichotomy c.toNat d.toNat with h | h | h
      · simp [lexLe, h, Nat.lt_asymm h] at h2
      · simp [lexLe, h] at h1 h2
        rw [char_toNat_inj h, ih h1 h2]
  -- third trichotomy case
      · simp [lexLe, h, Nat.lt_asymm h] at h1

theorem strLe_total (a b : String) : strLe a b = true ∨ strLe b a = true :=
  lexLe_total a.data b.data

theorem strLe_antisymm {a b : String} (h1 : strLe a b = true)
    (h2 : strLe b a = true) : a = b := by
  cases a; cases b
  exact congrArg String.mk (lexLe_antisymm h1 h2)

theorem keyOf_comm (a b : String) : keyOf a b = keyOf b a := by
  unfold keyOf
  by_cases h1 : strLe a b = true <;> by_cases h2 : strLe b a = true <;>
    simp [h1, h2]
  · exact ⟨strLe_antisymm h1 h2, strLe_antisymm h2 h1⟩
  · rcases strLe_total a b with h | h
    · exact absurd h h1
    · exact absurd h h2

theorem keyOf_eq_cases {a b c d : String} (h : keyOf a b = keyOf c d) :
    (a = c ∧ b = d) ∨ (a = d ∧ b = c) := by
  unfold keyOf at h
  by_cases h1 : strLe a b = true <;> by_cases h2 : strLe c d = true <;>
    simp [h1, h2, Prod.ext_iff] at h
  · exact Or.inl h
  · exact Or.inr ⟨h.1, h.2⟩
  · exact Or.inr ⟨h.2, h.1⟩
  · exact Or.inl ⟨h.2, h.1⟩

/-! ## Lemmas: the stable descending sort -/

theorem insertDesc_perm (x : ℕ × α) (l : List (ℕ × α)) :
    List.Perm (insertDesc x l) (x :: l) := by
  induction l with
  | nil => simp [insertDesc]
  | cons y ys ih =>
    by_cases h : y.2 ≤ x.2
    · rw [insertDesc, if_pos h]
    · rw [insertDesc, if_neg h]
      exact (ih.cons y).trans (List.Perm.swap x y ys)

theorem sortDesc_perm (l : List (ℕ × α)) : List.Perm (sortDesc l) l := by
  induction l with
  | nil => simp [sortDesc]
  | cons x xs ih => exact (insertDesc_perm x (sortDesc xs)).trans (ih.cons x)

theorem pairwise_insertDesc (x : ℕ × α) (l : List (ℕ × α))
    (hl : l.Pairwise lexGt) (hx : ∀ y ∈ l, x.1 < y.1) :
    (insertDesc x l).Pairwise lexGt := by
  induction l with
  | nil => simp [insertDesc, List.pairwise_cons]
  | cons y ys ih =>
    rcases List.pairwise_cons.mp hl with ⟨hy, hys⟩
    by_cases h : y.2 ≤ x.2
    · rw [insertDesc, if_pos h]
      refine List.pairwise_cons.mpr ⟨?_, hl⟩
      intro z hz
      rcases List.mem_cons.mp hz with rfl | hz'
      · rcases lt_or_eq_of_le h with h' | h'
        · exact Or.inl h'
        · exact Or.inr ⟨h'.symm, hx z (List.mem_cons_self z ys)⟩
      · rcases hy z hz' with h1 | ⟨h1, _⟩
        · exact Or.inl (lt_of_lt_of_le h1 h)
        · rcases lt_or_eq_of_le h with h' | h'
          · exact Or.inl (h1 ▸ h')
          · exact Or.inr ⟨by rw [← h', h1], hx z (List.mem_cons_of_mem y hz')⟩
    · rw [insertDesc, if_neg h]
      push_neg at h
      refine List.pairwise_cons.mpr
        ⟨?_, ih hys (fun z hz => hx z (List.mem_cons_of_mem y hz))⟩
      intro z hz
      rcases List.mem_cons.mp ((insertDesc_perm x ys).mem_iff.mp hz) with rfl | hz'
      · exact Or.inl h
      · exact hy z hz'

theorem pairwise_sortDesc (l : List (ℕ × α))
    (hl : l.Pairwise (fun p q => p.1 < q.1)) :
    (sortDesc l).Pairwise lexGt := by
  induction l with
  | nil => simp [sortDesc]
  | cons x xs ih =>
    rcases List.pairwise_cons.mp hl with ⟨hx, hxs⟩
    rw [sortDesc]
    refine pairwise_insertDesc x (sortDesc xs) (ih hxs) ?_
    intro y hy
    exact hx y ((sortDesc_perm xs).mem_iff.mp hy)

theorem lexGt_antisymm {p q : ℕ × α} (h1 : lexGt p q) (h2 : lexGt q p) : p = q := by
  rcases h1 with h1 | ⟨h1, h1'⟩ <;> rcases h2 with h2 | ⟨h2, h2'⟩
  · exact absurd h1 (lt_asymm h2)
  · exact absurd h1 (h2 ▸ lt_irrefl _)
  · exact absurd h2 (h1 ▸ lt_irrefl _)
  · omega

/-! ## Lemmas: enumeration -/

theorem mem_enumFrom_iff {β : Type} (l : List β) (n i : ℕ) (a : β) :
    (i, a) ∈ List.enumFrom n l ↔ n ≤ i ∧ l[i - n]? = some a := by
  induction l generalizing n with
  | nil => simp
  | cons b t ih =>
    simp only [List.enumFrom, List.mem_cons, ih (n + 1)]
    constructor
    · rintro (h | ⟨h1, h2⟩)
      · obtain ⟨rfl, rfl⟩ := Prod.mk.injEq .. ▸ h
        simp
      · refine ⟨by omega, ?_⟩
        have he : i - n = (i - (n + 1)) + 1 := by omega
        rw [he, List.getElem?_cons_succ]
        exact h2
    · rintro ⟨h1, h2⟩
      rcases Nat.eq_or_lt_of_le h1 with rfl | h
      · left
        simp at h2
        rw [h2]
      · right
        refine ⟨by omega, ?_⟩
        have he : i - n = (i - (n + 1)) + 1 := by omega
        rw [he, List.getElem?_cons_succ] at h2
        exact h2

theorem mem_enum_iff {β : Type} (l : List β) (i : ℕ) (a : β) :
    (i, a) ∈ l.enum ↔ l[i]? = some a := by
  rw [List.enum, mem_enumFrom_iff]
  simp

theorem enumFrom_fst_pairwise {β : Type} (l : List β) (n : ℕ) :
    (List.enumFrom n l).Pairwise (fun p q => p.1 < q.1) := by
  induction l generalizing n with
  | nil => simp
  | cons b t ih =>
    refine List.pairwise_cons.mpr ⟨?_, ih (n + 1)⟩
    rintro ⟨i, a⟩ hp
    have := (mem_enumFrom_iff t (n + 1) i a).mp hp
    simpa using by omega

theorem enum_fst_pairwise {β : Type} (l : List β) :
    l.enum.Pairwise (fun p q => p.1 < q.1) := by
  rw [List.enum]
  exact enumFrom_fst_pairwise l 0

/-! ## Lemmas: the candidate list and selection -/

theorem pairwise_fst_filterMap {β γ : Type} (f : ℕ × β → Option (ℕ × γ))
    (hf : ∀ p q, f p = some q → q.1 = p.1) (l : List (ℕ × β))
    (hl : l.Pairwise (fun p q => p.1 < q.1)) :
    (l.filterMap f).Pairwise (fun p q => p.1 < q.1) := by
  induction l with
  | nil => simp
  | cons p t ih =>
    rcases List.pairwise_cons.mp hl with ⟨hp, ht⟩
    rw [List.filterMap_cons]
    cases hfp : f p with
    | none => exact ih ht
    | some q =>
      refine List.pairwise_cons.mpr ⟨?_, ih ht⟩
      intro r hr
      rcases List.mem_filterMap.mp hr with ⟨u, hu, hfu⟩
      rw [hf p q hfp, hf u r hfu]
      exact hp u hu

theorem simsFor_fst_pairwise (simf : List α → List α → α) (m : EmbMap α)
    (nodes : List GraphNode) (i : ℕ) (ea : List α) :
    (simsFor simf m nodes i ea).Pairwise (fun p q => p.1 < q.1) := by
  unfold simsFor
  refine pairwise_fst_filterMap _ ?_ _ (enum_fst_pairwise nodes)
  intro p q h
  by_cases hpi : p.1 = i
  · simp [hpi] at h
  · cases he : embLookup m p.2.id with
    | none => simp [hpi, he] at h
    | some eb =>
      simp [hpi, he] at h
      rw [← h]

theorem mem_simsFor {simf : List α → List α → α} {m : EmbMap α}
    {nodes : List GraphNode} {i : ℕ} {ea : List α} {j : ℕ} {s : α} :
    (j, s) ∈ simsFor simf m nodes i ea ↔
      j ≠ i ∧ ∃ b eb, nodes[j]? = some b ∧ embLookup m b.id = some eb ∧
        s = simf ea eb := by
  unfold simsFor
  rw [List.mem_filterMap]
  constructor
  · rintro ⟨p, hp, hfp⟩
    by_cases hpi : p.1 = i
    · simp [hpi] at hfp
    · cases he : embLookup m p.2.id with
      | none => simp [hpi, he] at hfp
      | some eb =>
        simp [hpi, he] at hfp
        obtain ⟨h1, h2⟩ := hfp
        subst h1
        have hj := (mem_enum_iff nodes p.1 p.2).mp (by cases p; exact hp)
        exact ⟨hpi, p.2, eb, hj, he, h2.symm⟩
  · rintro ⟨hji, b, eb, hb, he, rfl⟩
    refine ⟨(j, b), (mem_enum_iff nodes j b).mpr hb, ?_⟩
    rw [if_neg hji]
    simp [he]

theorem selects_subset {simf : List α → List α → α} {m : EmbMap α}
    {nodes : List GraphNode} {i : ℕ} {ea : List α} {q : ℕ × α}
    (h : q ∈ selects simf m nodes i ea) : q ∈ simsFor simf m nodes i ea :=
  (sortDesc_perm _).mem_iff.mp ((List.take_sublist 3 _).mem h)

theorem mem_selects_info {simf : List α → List α → α} {m : EmbMap α}
    {nodes : List GraphNode} {i : ℕ} {ea : List α} {j : ℕ} {s : α}
    (h : (j, s) ∈ selects simf m nodes i ea) :
    j ≠ i ∧ ∃ b eb, nodes[j]? = some b ∧ embLookup m b.id = some eb ∧
      s = simf ea eb :=
  mem_simsFor.mp (selects_subset h)

/-! ## Lemmas: the dedup fold -/

variable {simf : List α → List α → α} {m : EmbMap α} {nodes : List GraphNode}

theorem selStep_seen_mono {aid : String} {k : String × String}
    {st : List (GraphLink α) × List (String × String)} {q : ℕ × α}
    (hk : k ∈ st.2) : k ∈ (selStep nodes aid st q).2 := by
  unfold selStep
  split
  · exact hk
  · exact List.mem_cons_of_mem _ hk

theorem foldl_selStep_seen_mono {aid : String} {k : String × String}
    {sel : List (ℕ × α)} {st : List (GraphLink α) × List (String × String)}
    (hk : k ∈ st.2) : k ∈ (sel.foldl (selStep nodes aid) st).2 := by
  induction sel generalizing st with
  | nil => exact hk
  | cons q qs ih => exact ih (selStep_seen_mono hk)

theorem selStep_seen_self {aid : String}
    {st : List (GraphLink α) × List (String × String)} (q : ℕ × α) :
    keyOf aid (nodeIdAt nodes q.1) ∈ (selStep nodes aid st q).2 := by
  unfold selStep
  split
  · assumption
  · exact List.mem_cons_self _ _

theorem foldl_selStep_seen_of_mem {aid : String} {sel : List (ℕ × α)}
    {st : List (GraphLink α) × List (String × String)} {q : ℕ × α}
    (hq : q ∈ sel) :
    keyOf aid (nodeIdAt nodes q.1) ∈ (sel.foldl (selStep nodes aid) st).2 := by
  obtain ⟨l1, l2, rfl⟩ := List.append_of_mem hq
  rw [List.foldl_append, List.foldl_cons]
  exact foldl_selStep_seen_mono (selStep_seen_self q)

theorem nodeStep_seen_mono {k : String × String}
    {st : List (GraphLink α) × List (String × String)} {p : ℕ × GraphNode}
    (hk : k ∈ st.2) : k ∈ (nodeStep simf m nodes st p).2 := by
  unfold nodeStep
  split
  · exact hk
  · exact foldl_selStep_seen_mono hk

theorem foldl_nodeStep_seen_mono {k : String × String}
    {ps : List (ℕ × GraphNode)}
    {st : List (GraphLink α) × List (String × String)} (hk : k ∈ st.2) :
    k ∈ (ps.foldl (nodeStep simf m nodes) st).2 := by
  induction ps generalizing st with
  | nil => exact hk
  | cons p pt ih => exact ih (nodeStep_seen_mono hk)

theorem foldl_nodeStep_seen_of_select {ps : List (ℕ × GraphNode)}
    {st : List (GraphLink α) × List (String × String)}
    {i : ℕ} {a : GraphNode} {ea : List α} {q : ℕ × α}
    (hp : (i, a) ∈ ps) (hea : embLookup m a.id = some ea)
    (hq : q ∈ selects simf m nodes i ea) :
    keyOf a.id (nodeIdAt nodes q.1) ∈ (ps.foldl (nodeStep simf m nodes) st).2 := by
  obtain ⟨l1, l2, rfl⟩ := List.append_of_mem hp
  rw [List.foldl_append, List.foldl_cons]
  apply foldl_nodeStep_seen_mono
  show _ ∈ (nodeStep simf m nodes _ (i, a)).2
  unfold nodeStep
  simp only [hea]
  exact foldl_selStep_seen_of_mem hq

theorem selStep_inv {st : List (GraphLink α) × List (String × String)}
    {i : ℕ} {a : GraphNode} {ea : List α} {q : ℕ × α}
    (hia : nodes[i]? = some a) (hea : embLookup m a.id = some ea)
    (hq : q ∈ selects simf m nodes i ea)
    (hinv : LinkInv simf m nodes st) :
    LinkInv simf m nodes (selStep nodes a.id st q) := by
  obtain ⟨hJ, hK, hN⟩ := hinv
  unfold selStep
  split
  · exact ⟨hJ, hK, hN⟩
  next hkey =>
    refine ⟨?_, ?_, ?_⟩
    · intro l hl
      rcases List.mem_append.mp hl with hl | hl
      · exact hJ l hl
      · rw [List.mem_singleton.mp hl]
        exact ⟨i, a, ea, q.1, q.2, hia, hea, hq, rfl⟩
    · intro k
      constructor
      · intro hk
        rcases List.mem_cons.mp hk with rfl | hk
        · exact ⟨⟨a.id, nodeIdAt nodes q.1, round4 q.2⟩, by simp, rfl⟩
        · obtain ⟨l, hl, hlk⟩ := (hK k).mp hk
          exact ⟨l, List.mem_append_left _ hl, hlk⟩
      · rintro ⟨l, hl, hlk⟩
        rcases List.mem_append.mp hl with hl | hl
        · exact List.mem_cons_of_mem _ ((hK k).mpr ⟨l, hl, hlk⟩)
        · rw [List.mem_singleton.mp hl] at hlk
          rw [← hlk]
          exact List.mem_cons_self _ _
    · rw [List.map_append]
      refine List.Nodup.append hN (by simp) ?_
      intro k hk1 hk2
      simp only [List.map_cons, List.map_nil, List.mem_singleton] at hk2
      subst hk2
      exact absurd ((hK _).mpr (List.mem_map.mp hk1)) hkey

theorem foldl_selStep_inv {st : List (GraphLink α) × List (String × String)}
    {i : ℕ} {a : GraphNode} {ea : List α} {sel : List (ℕ × α)}
    (hia : nodes[i]? = some a) (hea : embLookup m a.id = some ea)
    (hsel : ∀ q ∈ sel, q ∈ selects simf m nodes i ea)
    (hinv : LinkInv simf m nodes st) :
    LinkInv simf m nodes (sel.foldl (selStep nodes a.id) st) := by
  induction sel generalizing st with
  | nil => exact hinv
  | cons q qs ih =>
    exact ih (fun r hr => hsel r (List.mem_cons_of_mem q hr))
      (selStep_inv hia hea (hsel q (List.mem_cons_self q qs)) hinv)

theorem nodeStep_inv {st : List (GraphLink α) × List (String × String)}
    {p : ℕ × GraphNode} (hp : p ∈ nodes.enum)
    (hinv : LinkInv simf m nodes st) :
    LinkInv simf m nodes (nodeStep simf m nodes st p) := by
  have hia : nodes[p.1]? = some p.2 :=
    (mem_enum_iff nodes p.1 p.2).mp (by cases p; exact hp)
  unfold nodeStep
  split
  · exact hinv
  next ea hea => exact foldl_selStep_inv hia hea (fun q hq => hq) hinv

theorem foldl_nodeStep_inv {st : List (GraphLink α) × List (String × String)}
    {ps : List (ℕ × GraphNode)} (hps : ∀ p ∈ ps, p ∈ nodes.enum)
    (hinv : LinkInv simf m nodes st) :
    LinkInv simf m nodes (ps.foldl (nodeStep simf m nodes) st) := by
  induction ps generalizing st with
  | nil => exact hinv
  | cons p pt ih =>
    exact ih (fun r hr => hps r (List.mem_cons_of_mem p hr))
      (nodeStep_inv (hps p (List.mem_cons_self p pt)) hinv)

theorem linkFold_inv : LinkInv simf m nodes (linkFold simf m nodes) :=
  foldl_nodeStep_inv (fun p hp => hp)
    ⟨by simp, by simp, by simp⟩

theorem countP_key_of_nodup {κ : Type} [DecidableEq κ] {l : List κ} (h : l.Nodup)
    (K : κ) : l.countP (fun x => decide (x = K)) = if K ∈ l then 1 else 0 := by
  induction l with
  | nil => simp
  | cons a t ih =>
    rw [List.countP_cons]
    rcases List.nodup_cons.mp h with ⟨ha, ht⟩
    by_cases hK : a = K
    · subst hK
      simp [ha, ih ht]
    · simp only [ih ht, List.mem_cons]
      simp [hK, Ne.symm hK]

theorem countKey_of_inv {st : List (GraphLink α) × List (String × String)}
    (hinv : LinkInv simf m nodes st) (K : String × String) :
    countKey st.1 K = if K ∈ st.2 then 1 else 0 := by
  obtain ⟨-, hK, hN⟩ := hinv
  unfold countKey
  have hmap : st.1.countP (fun l => decide (linkKey l = K))
      = (st.1.map linkKey).countP (fun k => decide (k = K)) :=
    (List.countP_map (fun k => decide (k = K)) linkKey st.1).symm
  rw [hmap, countP_key_of_nodup hN K]
  by_cases h : K ∈ st.2
  · obtain ⟨l, hl, hlk⟩ := (hK K).mp h
    rw [if_pos h, if_pos (hlk ▸ List.mem_map_of_mem linkKey hl)]
  · rw [if_neg h, if_neg ?_]
    intro hmem
    exact h ((hK K).mpr (List.mem_map.mp hmem))

theorem node_id_inj (hnd : (nodes.map GraphNode.id).Nodup)
    {i j : ℕ} {a b : GraphNode} (hi : nodes[i]? = some a)
    (hj : nodes[j]? = some b) (hab : a.id = b.id) : i = j := by
  obtain ⟨hi', hia⟩ := List.getElem?_eq_some_iff.mp hi
  obtain ⟨hj', hjb⟩ := List.getElem?_eq_some_iff.mp hj
  have hlen : (nodes.map GraphNode.id).length = nodes.length := List.length_map _ _
  have hi2 : i < (nodes.map GraphNode.id).length := by omega
  have hj2 : j < (nodes.map GraphNode.id).length := by omega
  have h1 : (nodes.map GraphNode.id)[i] = (nodes.map GraphNode.id)[j] := by
    simp [List.getElem_map, hia, hjb, hab]
  exact (hnd.getElem_inj_iff).mp h1

theorem nodeIdAt_eq {j : ℕ} {b : GraphNode} (hj : nodes[j]? = some b) :
    nodeIdAt nodes j = b.id := by
  unfold nodeIdAt
  rw [hj]
  rfl

theorem linkFold_seen_iff (hnd : (nodes.map GraphNode.id).Nodup)
    {i j : ℕ} {a b : GraphNode} {ea eb : List α}
    (hi : nodes[i]? = some a) (hj : nodes[j]? = some b)
    (hea : embLookup m a.id = some ea) (heb : embLookup m b.id = some eb) :
    (keyOf a.id b.id ∈ (linkFold simf m nodes).2 ↔
      j ∈ (selects simf m nodes i ea).map Prod.fst ∨
      i ∈ (selects simf m nodes j eb).map Prod.fst) := by
  constructor
  · intro hk
    obtain ⟨hJ, hK, -⟩ := @linkFold_inv _ _ _ _ simf m nodes
    obtain ⟨l, hl, hlk⟩ := (hK _).mp hk
    obtain ⟨i', a', ea', j', s, hi', hea', hsel, rfl⟩ := hJ l hl
    obtain ⟨-, b', eb', hj', heb', -⟩ := mem_selects_info hsel
    have hlk' : keyOf a'.id b'.id = keyOf a.id b.id := by
      rw [← nodeIdAt_eq hj']
      exact hlk
    rcases keyOf_eq_cases hlk' with ⟨h1, h2⟩ | ⟨h1, h2⟩
    · left
      have hii : i' = i := node_id_inj hnd hi' hi h1
      have hjj : j' = j := node_id_inj hnd hj' hj h2
      subst hii hjj
      rw [h1] at hea'
      rw [hea] at hea'
      obtain rfl := Option.some.injEq .. ▸ hea'
      exact List.mem_map_of_mem Prod.fst hsel
    · right
      have hii : i' = j := node_id_inj hnd hi' hj h1
      have hjj : j' = i := node_id_inj hnd hj' hi h2
      subst hii hjj
      rw [h1] at hea'
      rw [heb] at hea'
      obtain rfl := Option.some.injEq .. ▸ hea'
      exact List.mem_map_of_mem Prod.fst hsel
  · intro hsel
    rcases hsel with hs | hs
    · obtain ⟨q, hq, hq1⟩ := List.mem_map.mp hs
      have hkey : keyOf a.id (nodeIdAt nodes q.1) = keyOf a.id b.id := by
        rw [hq1, nodeIdAt_eq hj]
      rw [← hkey]
      show keyOf a.id (nodeIdAt nodes q.1)
        ∈ (nodes.enum.foldl (nodeStep simf m nodes) ([], [])).2
      exact foldl_nodeStep_seen_of_select ((mem_enum_iff nodes i a).mpr hi) hea hq
    · obtain ⟨q, hq, hq1⟩ := List.mem_map.mp hs
      have hkey : keyOf b.id (nodeIdAt nodes q.1) = keyOf a.id b.id := by
        rw [hq1, nodeIdAt_eq hi, keyOf_comm]
      rw [← hkey]
      show keyOf b.id (nodeIdAt nodes q.1)
        ∈ (nodes.enum.foldl (nodeStep simf m nodes) ([], [])).2
      exact foldl_nodeStep_seen_of_select ((mem_enum_iff nodes j b).mpr hj) heb hq

/-! ## The claims about the link builder -/

/-- C1: for distinct embedded nodes `a` (at index `i`) and `b` (at index
`j`) of a node list with unique ids, the built link list contains exactly
one link whose unordered endpoint pair is `{a.id, b.id}` when `a` selects
`b` in its top-3 and/or `b` selects `a` in its top-3, and no such link
otherwise. -/
theorem knn_link_pair_exactly_once
    (simf : List α → List α → α) (m : EmbMap α) (nodes : List GraphNode)
    (hnd : (nodes.map GraphNode.id).Nodup)
    (i j : ℕ) (a b : GraphNode) (ea eb : List α)
    (hi : nodes[i]? = some a) (hj : nodes[j]? = some b) (hij : i ≠ j)
    (hea : embLookup m a.id = some ea) (heb : embLookup m b.id = some eb) :
    countKey (buildLinks simf m nodes) (keyOf a.id b.id)
      = if j ∈ (selects simf m nodes i ea).map Prod.fst ∨
           i ∈ (selects simf m nodes j eb).map Prod.fst
        then 1 else 0 := by
  have hm : m.isEmpty = false := by
    cases m with
    | nil => rw [embLookup] at hea; cases hea
    | cons p t => rfl
  unfold buildLinks
  simp only [hm, Bool.false_eq_true, if_false]
  rw [countKey_of_inv linkFold_inv]
  rw [if_congr (linkFold_seen_iff hnd hi hj hea heb) rfl rfl]

/-- Witness for C1 at a concrete instance: two embedded nodes with
integer embeddings. -/
theorem knn_link_pair_exactly_once_witness :
    countKey (buildLinks simZ embZ [nodeA, nodeB, nodeC]) (keyOf nodeA.id nodeB.id)
      = if 1 ∈ (selects simZ embZ [nodeA, nodeB, nodeC] 0 [1, 0]).map Prod.fst ∨
           0 ∈ (selects simZ embZ [nodeA, nodeB, nodeC] 1 [1, 1]).map Prod.fst
        then 1 else 0 :=
  knn_link_pair_exactly_once simZ embZ [nodeA, nodeB, nodeC] (by decide)
    0 1 nodeA nodeB [1, 0] [1, 1] (by decide) (by decide) (by decide)
    (by decide) (by decide)

/-- C2: for an embedded node `a` at index `i`, the selection equals the
first three entries of the unique ranking of all embedded neighbors sorted
by descending similarity with ties broken by original input position; its
length is `min 3` the number of embedded neighbors; and every emitted link
records a top-3 selection with the similarity rounded to four decimal
places. -/
theorem knn_ranking_and_rounding
    (simf : List α → List α → α) (m : EmbMap α) (nodes : List GraphNode)
    (i : ℕ) (a : GraphNode) (ea : List α)
    (hi : nodes[i]? = some a) (hea : embLookup m a.id = some ea) :
    (∀ t, List.Perm t (simsFor simf m nodes i ea) → t.Pairwise lexGt →
        selects simf m nodes i ea = t.take 3)
    ∧ (selects simf m nodes i ea).length = min 3 (simsFor simf m nodes i ea).length
    ∧ (∀ l ∈ buildLinks simf m nodes, ∃ i' a' ea' j' b' eb' s,
        nodes[i']? = some a' ∧ embLookup m a'.id = some ea' ∧
        nodes[j']? = some b' ∧ embLookup m b'.id = some eb' ∧
        (j', s) ∈ selects simf m nodes i' ea' ∧ s = simf ea' eb' ∧
        l = ⟨a'.id, b'.id, round4 s⟩) := by
  refine ⟨?_, ?_, ?_⟩
  · intro t hperm hsort
    have h1 : List.Perm (sortDesc (simsFor simf m nodes i ea)) t :=
      (sortDesc_perm _).trans hperm.symm
    have h2 : (sortDesc (simsFor simf m nodes i ea)).Pairwise lexGt :=
      pairwise_sortDesc _ (simsFor_fst_pairwise simf m nodes i ea)
    have heq : sortDesc (simsFor simf m nodes i ea) = t := by
      haveI : IsAntisymm (ℕ × α) lexGt := ⟨fun _ _ h h' => lexGt_antisymm h h'⟩
      exact List.eq_of_perm_of_sorted h1 h2 hsort
    rw [selects, heq]
  · rw [selects, List.length_take, (sortDesc_perm _).length_eq]
  · intro l hl
    unfold buildLinks at hl
    split at hl
    · cases hl
    · obtain ⟨hJ, -, -⟩ := @linkFold_inv _ _ _ _ simf m nodes
      obtain ⟨i', a', ea', j', s, hi', hea', hsel, rfl⟩ := hJ l hl
      obtain ⟨-, b', eb', hj', heb', hs⟩ := mem_selects_info hsel
      exact ⟨i', a', ea', j', b', eb', s, hi', hea', hj', heb', hsel, hs,
        by rw [nodeIdAt_eq hj']⟩

/-- Witness for C2 at the same concrete instance. -/
theorem knn_ranking_and_rounding_witness :
    (∀ t, List.Perm t (simsFor simZ embZ [nodeA, nodeB, nodeC] 0 [1, 0]) →
        t.Pairwise lexGt →
        selects simZ embZ [nodeA, nodeB, nodeC] 0 [1, 0] = t.take 3)
    ∧ (selects simZ embZ [nodeA, nodeB, nodeC] 0 [1, 0]).length
        = min 3 (simsFor simZ embZ [nodeA, nodeB, nodeC] 0 [1, 0]).length
    ∧ (∀ l ∈ buildLinks simZ embZ [nodeA, nodeB, nodeC], ∃ i' a' ea' j' b' eb' s,
        [nodeA, nodeB, nodeC][i']? = some a' ∧ embLookup embZ a'.id = some ea' ∧
        [nodeA, nodeB, nodeC][j']? = some b' ∧ embLookup embZ b'.id = some eb' ∧
        (j', s) ∈ selects simZ embZ [nodeA, nodeB, nodeC] i' ea' ∧
        s = simZ ea' eb' ∧ l = ⟨a'.id, b'.id, round4 s⟩) :=
  knn_ranking_and_rounding simZ embZ [nodeA, nodeB, nodeC] 0 nodeA [1, 0]
    (by decide) (by decide)

/-- C10: a node whose id is absent from the node-embedding map appears in
the node list but occurs in no built link, neither as source nor as
target. -/
theorem unembedded_node_isolated
    (simf : List α → List α → α) (m : EmbMap α) (nodes : List GraphNode)
    (n : GraphNode) (hmem : n ∈ nodes) (hnone : embLookup m n.id = none) :
    n ∈ nodes ∧ ∀ l ∈ buildLinks simf m nodes, l.source ≠ n.id ∧ l.target ≠ n.id := by
  refine ⟨hmem, ?_⟩
  intro l hl
  unfold buildLinks at hl
  split at hl
  · cases hl
  · obtain ⟨hJ, -, -⟩ := @linkFold_inv _ _ _ _ simf m nodes
    obtain ⟨i', a', ea', j', s, hi', hea', hsel, rfl⟩ := hJ l hl
    obtain ⟨-, b', eb', hj', heb', -⟩ := mem_selects_info hsel
    constructor
    · intro hsrc
      rw [show (⟨a'.id, nodeIdAt nodes j', round4 s⟩ : GraphLink α).source = a'.id
          from rfl] at hsrc
      rw [hsrc, hnone] at hea'
      cases hea'
    · intro htgt
      rw [show (⟨a'.id, nodeIdAt nodes j', round4 s⟩ : GraphLink α).target
          = nodeIdAt nodes j' from rfl, nodeIdAt_eq hj'] at htgt
      rw [htgt, hnone] at heb'
      cases heb'

/-- Witness for C10: the third concrete node has no embedding. -/
theorem unembedded_node_isolated_witness :
    nodeC ∈ [nodeA, nodeB, nodeC] ∧
    ∀ l ∈ buildLinks simZ embZ [nodeA, nodeB, nodeC],
      l.source ≠ nodeC.id ∧ l.target ≠ nodeC.id :=
  unembedded_node_isolated simZ embZ [nodeA, nodeB, nodeC] nodeC
    (by decide) (by decide)

/-! ## Lemmas: shape of the discovered node list -/

theorem discoveredNode_id (d : DiscCand) (mo : Option PaperMeta) :
    (discoveredNode d mo).id = d.arxiv_id := by
  cases mo <;> rfl

theorem discoveredNode_not_root (d : DiscCand) (mo : Option PaperMeta) :
    (discoveredNode d mo).is_root = false := by
  cases mo <;> rfl

theorem build_reference_node_not_root {r : RefEntry} {node : GraphNode}
    (h : build_reference_node r = some node) : node.is_root = false := by
  unfold build_reference_node at h
  cases hex : extract_reference_paper_id r with
  | none => rw [hex] at h; cases h
  | some pid =>
    rw [hex] at h
    obtain rfl := Option.some.injEq .. ▸ h
    rfl

theorem groundingStep_preserve (root : GraphNode)
    (metaMap : String → Option PaperMeta)
    {st : List GraphNode × List String} (d : DiscCand)
    (h1 : st.2 = st.1.map GraphNode.id)
    (h2 : (st.1.map GraphNode.id).Nodup)
    (h3 : ∃ rest, st.1 = root :: rest ∧ ∀ n ∈ rest, n.is_root = false) :
    (groundingStep root metaMap st d).2
        = (groundingStep root metaMap st d).1.map GraphNode.id
    ∧ ((groundingStep root metaMap st d).1.map GraphNode.id).Nodup
    ∧ ∃ rest, (groundingStep root metaMap st d).1 = root :: rest ∧
        ∀ n ∈ rest, n.is_root = false := by
  unfold groundingStep
  split
  · exact ⟨h1, h2, h3⟩
  next hcond =>
    push_neg at hcond
    obtain ⟨hn1, -⟩ := hcond
    refine ⟨?_, ?_, ?_⟩
    · rw [List.map_append, ← h1]
      simp [discoveredNode_id]
    · rw [List.map_append]
      refine List.Nodup.append h2 (by simp) ?_
      intro k hk1 hk2
      simp only [List.map_cons, List.map_nil, List.mem_singleton,
        discoveredNode_id] at hk2
      subst hk2
      rw [← h1] at hk1
      exact hn1 hk1
    · obtain ⟨rest, hrest, hroot⟩ := h3
      refine ⟨rest ++ [discoveredNode d (metaMap d.arxiv_id)], by rw [hrest]; rfl, ?_⟩
      intro n hn
      rcases List.mem_append.mp hn with hn | hn
      · exact hroot n hn
      · rw [List.mem_singleton.mp hn]
        exact discoveredNode_not_root d _

theorem groundingFold_shape (root : GraphNode)
    (metaMap : String → Option PaperMeta) (cands : List DiscCand)
    {st : List GraphNode × List String}
    (h1 : st.2 = st.1.map GraphNode.id)
    (h2 : (st.1.map GraphNode.id).Nodup)
    (h3 : ∃ rest, st.1 = root :: rest ∧ ∀ n ∈ rest, n.is_root = false) :
    ((cands.foldl (groundingStep root metaMap) st).1.map GraphNode.id).Nodup
    ∧ ∃ rest, (cands.foldl (groundingStep root metaMap) st).1 = root :: rest ∧
        ∀ n ∈ rest, n.is_root = false := by
  induction cands generalizing st with
  | nil => exact ⟨h2, h3⟩
  | cons d ds ih =>
    rw [List.foldl_cons]
    obtain ⟨g1, g2, g3⟩ := groundingStep_preserve root metaMap d h1 h2 h3
    exact ih g1 g2 g3

theorem groundingLoop_shape (root : GraphNode) (cands : List DiscCand)
    (metaMap : String → Option PaperMeta) :
    ((groundingLoop root cands metaMap).map GraphNode.id).Nodup
    ∧ ∃ rest, groundingLoop root cands metaMap = root :: rest ∧
        ∀ n ∈ rest, n.is_root = false := by
  unfold groundingLoop
  exact groundingFold_shape root metaMap cands rfl (by simp)
    ⟨[], rfl, by simp⟩

theorem referencesStep_preserve (root : GraphNode)
    {st : List GraphNode × List String} (r : RefEntry)
    (h1 : st.2 = st.1.map GraphNode.id)
    (h2 : (st.1.map GraphNode.id).Nodup)
    (h3 : ∃ rest, st.1 = root :: rest ∧ ∀ n ∈ rest, n.is_root = false) :
    (referencesStep root st r).2 = (referencesStep root st r).1.map GraphNode.id
    ∧ ((referencesStep root st r).1.map GraphNode.id).Nodup
    ∧ ∃ rest, (referencesStep root st r).1 = root :: rest ∧
        ∀ n ∈ rest, n.is_root = false := by
  unfold referencesStep
  split
  · exact ⟨h1, h2, h3⟩
  next node hnode =>
    split
    · exact ⟨h1, h2, h3⟩
    split
    · exact ⟨h1, h2, h3⟩
    next hnotmem =>
      refine ⟨?_, ?_, ?_⟩
      · rw [List.map_append, ← h1]
        simp
      · rw [List.map_append]
        refine List.Nodup.append h2 (by simp) ?_
        intro k hk1 hk2
        simp only [List.map_cons, List.map_nil, List.mem_singleton] at hk2
        subst hk2
        rw [← h1] at hk1
        exact hnotmem hk1
      · obtain ⟨rest, hrest, hroot⟩ := h3
        refine ⟨rest ++ [node], by rw [hrest]; rfl, ?_⟩
        intro n hn
        rcases List.mem_append.mp hn with hn | hn
        · exact hroot n hn
        · rw [List.mem_singleton.mp hn]
          exact build_reference_node_not_root hnode

theorem referencesFold_shape (root : GraphNode) (refs : List RefEntry)
    {st : List GraphNode × List String}
    (h1 : st.2 = st.1.map GraphNode.id)
    (h2 : (st.1.map GraphNode.id).Nodup)
    (h3 : ∃ rest, st.1 = root :: rest ∧ ∀ n ∈ rest, n.is_root = false) :
    ((refs.foldl (referencesStep root) st).1.map GraphNode.id).Nodup
    ∧ ∃ rest, (refs.foldl (referencesStep root) st).1 = root :: rest ∧
        ∀ n ∈ rest, n.is_root = false := by
  induction refs generalizing st with
  | nil => exact ⟨h2, h3⟩
  | cons r rs ih =>
    rw [List.foldl_cons]
    obtain ⟨g1, g2, g3⟩ := referencesStep_preserve root r h1 h2 h3
    exact ih g1 g2 g3

theorem referencesLoop_shape (root : GraphNode) (refs : List RefEntry) :
    ((referencesLoop root refs).map GraphNode.id).Nodup
    ∧ ∃ rest, referencesLoop root refs = root :: rest ∧
        ∀ n ∈ rest, n.is_root = false := by
  unfold referencesLoop
  exact referencesFold_shape root refs rfl (by simp) ⟨[], rfl, by simp⟩

theorem generate_nodes_shape (mode : Mode) (paper_id : String) (seed : PaperMeta)
    (groundRes : Except String (List DiscCand))
    (metaMap : String → Option PaperMeta)
    (refRes : Except RefExc (List RefEntry))
    (embRes : Option (List (List α)))
    (simf : List α → List α → α)
    (store : List (StoredPaper α)) (now : ℕ) :
    (((generate_graph_internal mode paper_id seed groundRes metaMap refRes
        embRes simf store now).1.nodes.map GraphNode.id).Nodup)
    ∧ ∃ rest, (generate_graph_internal mode paper_id seed groundRes metaMap refRes
        embRes simf store now).1.nodes = build_root_node paper_id seed :: rest ∧
        ∀ n ∈ rest, n.is_root = false := by
  unfold generate_graph_internal
  cases mode with
  | grounding =>
    cases groundRes with
    | ok cands => exact groundingLoop_shape _ cands metaMap
    | error e => exact groundingLoop_shape _ [] metaMap
  | references =>
    cases refRes with
    | ok refs => exact referencesLoop_shape _ refs
    | error exc => exact referencesLoop_shape _ []

/-! ## Discovery failure degrades to a root-only graph (C5) -/

theorem string_append_ne_empty {s t : String} (h : s ≠ "") : s ++ t ≠ "" := by
  intro heq
  have hlen := congrArg String.length heq
  rw [String.length_append] at hlen
  have h0 : ("" : String).length = 0 := rfl
  rw [h0] at hlen
  have hs : s.length = 0 := by omega
  apply h
  cases s with
  | mk data =>
    cases data with
    | nil => rfl
    | cons c t => simp [String.length] at hs

theorem summarize_references_error_ne_empty (exc : RefExc) :
    summarize_references_error exc ≠ "" := by
  cases exc with
  | httpStatus status ra =>
    simp only [summarize_references_error]
    by_cases h : status = 429
    · rw [if_pos h]
      cases ra with
      | none => decide
      | some r =>
        show (if r = "" then
            "Semantic Scholar rate limit reached (HTTP 429). Try again shortly."
          else "Semantic Scholar rate limit reached (HTTP 429). Retry-After: "
            ++ r ++ ".") ≠ ""
        by_cases hr : r = ""
        · rw [if_pos hr]
          decide
        · rw [if_neg hr]
          exact string_append_ne_empty (string_append_ne_empty (by decide))
    · rw [if_neg h]
      exact string_append_ne_empty (string_append_ne_empty (by decide))
  | timeout => decide
  | httpOther => decide
  | parse => decide

/-- C5: when the discovery step fails entirely (in either mode the
provider raises and zero candidates are obtained), the build still
returns a graph whose node list is exactly the seed node, with
`partial_data = true` and a non-empty discovery-error string, instead of
aborting. -/
theorem discovery_failure_root_only
    (paper_id : String) (seed : PaperMeta)
    (metaMap : String → Option PaperMeta)
    (groundRes : Except String (List DiscCand))
    (refRes : Except RefExc (List RefEntry))
    (embRes : Option (List (List α)))
    (simf : List α → List α → α) (store : List (StoredPaper α)) (now : ℕ)
    (e : String) (exc : RefExc) :
    ((generate_graph_internal .grounding paper_id seed (.error e) metaMap
        refRes embRes simf store now).1.nodes = [build_root_node paper_id seed]
      ∧ build_root_node paper_id seed ∈ (generate_graph_internal .grounding
          paper_id seed (.error e) metaMap refRes embRes simf store now).1.nodes
      ∧ (generate_graph_internal .grounding paper_id seed (.error e) metaMap
          refRes embRes simf store now).1.partial_data = true
      ∧ ∃ s, (generate_graph_internal .grounding paper_id seed (.error e) metaMap
          refRes embRes simf store now).1.references_error = some s ∧ s ≠ "")
    ∧ ((generate_graph_internal .references paper_id seed groundRes metaMap
        (.error exc) embRes simf store now).1.nodes = [build_root_node paper_id seed]
      ∧ build_root_node paper_id seed ∈ (generate_graph_internal .references
          paper_id seed groundRes metaMap (.error exc) embRes simf store now).1.nodes
      ∧ (generate_graph_internal .references paper_id seed groundRes metaMap
          (.error exc) embRes simf store now).1.partial_data = true
      ∧ ∃ s, (generate_graph_internal .references paper_id seed groundRes metaMap
          (.error exc) embRes simf store now).1.references_error = some s ∧ s ≠ "") := by
  constructor
  · refine ⟨rfl, ?_, rfl, ?_⟩
    · show build_root_node paper_id seed ∈ [build_root_node paper_id seed]
      exact List.mem_singleton.mpr rfl
    · exact ⟨"Google Search grounding failed: " ++ e, rfl,
        string_append_ne_empty (by decide)⟩
  · refine ⟨rfl, ?_, rfl, ?_⟩
    · show build_root_node paper_id seed ∈ [build_root_node paper_id seed]
      exact List.mem_singleton.mpr rfl
    · exact ⟨summarize_references_error exc, rfl,
        summarize_references_error_ne_empty exc⟩

/-! ## Unique ids and the root flag (C9) -/

theorem get_session_nodes_ids (store : List (StoredPaper α)) (sid : String)
    (mids : List String) (simf : List α → List α → α) :
    (get_session_graph store sid mids simf).nodes.map GraphNode.id
      = (store.filter (fun p => decide (p.arxiv_id ∈ mids))).map
          StoredPaper.arxiv_id := by
  unfold get_session_graph
  rw [List.map_map]
  rfl

/-- C9 (amended): in every freshly built graph the node ids are pairwise
distinct and `is_root` holds exactly on the seed node (one node); a
candidate discovered more than once yields one node, since ids are
distinct.  In a reloaded session graph (over a store with unique ids) the
ids are again pairwise distinct and `is_root` holds exactly on the nodes
whose id equals the stored seed id — which is exactly one node precisely
when the seed id is among the loaded papers, and zero nodes otherwise. -/
theorem unique_ids_and_root_flag
    (mode : Mode) (paper_id : String) (seed : PaperMeta)
    (groundRes : Except String (List DiscCand))
    (metaMap : String → Option PaperMeta)
    (refRes : Except RefExc (List RefEntry))
    (embRes : Option (List (List α)))
    (simf : List α → List α → α) (store : List (StoredPaper α)) (now : ℕ)
    (store2 : List (StoredPaper α)) (sid : String) (mids : List String)
    (simf2 : List α → List α → α)
    (hnd : (store2.map StoredPaper.arxiv_id).Nodup) :
    (((generate_graph_internal mode paper_id seed groundRes metaMap refRes
        embRes simf store now).1.nodes.map GraphNode.id).Nodup
      ∧ (∀ n ∈ (generate_graph_internal mode paper_id seed groundRes metaMap
          refRes embRes simf store now).1.nodes,
          (n.is_root = true ↔ n.id = paper_id))
      ∧ (generate_graph_internal mode paper_id seed groundRes metaMap refRes
          embRes simf store now).1.nodes.countP (fun n => n.is_root) = 1)
    ∧ (((get_session_graph store2 sid mids simf2).nodes.map GraphNode.id).Nodup
      ∧ (∀ n ∈ (get_session_graph store2 sid mids simf2).nodes,
          (n.is_root = true ↔ n.id = sid))
      ∧ (get_session_graph store2 sid mids simf2).nodes.countP
            (fun n => n.is_root)
          = if sid ∈ (store2.filter (fun p => decide (p.arxiv_id ∈ mids))).map
                StoredPaper.arxiv_id
            then 1 else 0) := by
  obtain ⟨hnodup, rest, hrest, hroot⟩ := generate_nodes_shape mode paper_id seed
    groundRes metaMap refRes embRes simf store now
  have hRootNotIn : (build_root_node paper_id seed).id ∉ rest.map GraphNode.id := by
    have := hrest ▸ hnodup
    rw [List.map_cons] at this
    exact (List.nodup_cons.mp this).1
  refine ⟨⟨hnodup, ?_, ?_⟩, ?_, ?_, ?_⟩
  · intro n hn
    rw [hrest] at hn
    rcases List.mem_cons.mp hn with rfl | hn
    · constructor
      · intro _
        rfl
      · intro _
        rfl
    · constructor
      · intro hfalse
        rw [hroot n hn] at hfalse
        cases hfalse
      · intro hid
        exfalso
        apply hRootNotIn
        have : n.id ∈ rest.map GraphNode.id := List.mem_map_of_mem _ hn
        rw [hid] at this
        exact this
  · rw [hrest, List.countP_cons]
    have h0 : rest.countP (fun n => n.is_root) = 0 := by
      rw [List.countP_eq_zero]
      intro n hn
      simp [hroot n hn]
    simp [h0, build_root_node]
  · rw [get_session_nodes_ids]
    exact ((List.filter_sublist store2).map StoredPaper.arxiv_id).nodup hnd
  · intro n hn
    unfold get_session_graph at hn
    obtain ⟨p, hp, rfl⟩ := List.mem_map.mp hn
    unfold storedNode
    simp
  · unfold get_session_graph
    have h1 : (List.map (storedNode (sid : String))
          (store2.filter (fun p => decide (p.arxiv_id ∈ mids)))).countP
          (fun n => n.is_root)
        = (store2.filter (fun p => decide (p.arxiv_id ∈ mids))).countP
          (fun p => decide (p.arxiv_id = sid)) :=
      List.countP_map (fun n => n.is_root) (storedNode sid) _
    have h2 : (store2.filter (fun p => decide (p.arxiv_id ∈ mids))).countP
          (fun p => decide (p.arxiv_id = sid))
        = ((store2.filter (fun p => decide (p.arxiv_id ∈ mids))).map
            StoredPaper.arxiv_id).countP (fun x => decide (x = sid)) :=
      (List.countP_map (fun x => decide (x = sid)) StoredPaper.arxiv_id _).symm
    have hnd2 : ((store2.filter (fun p => decide (p.arxiv_id ∈ mids))).map
        StoredPaper.arxiv_id).Nodup :=
      ((List.filter_sublist store2).map StoredPaper.arxiv_id).nodup hnd
    show (List.map (storedNode sid) _).countP (fun n => n.is_root) = _
    rw [h1, h2, countP_key_of_nodup hnd2 sid]

/-- Counterexample to C9 as stated: a session whose seed paper is absent
from the paper store reloads to a returned graph with one node and zero
`is_root` nodes, so the root flag is not set on exactly one node. -/
theorem root_flag_counterexample :
    ((get_session_graph
        [⟨"2222.0002", "other title", "", none, [], "", ([1] : List ℤ), 0, 0⟩]
        "2222.0001" ["2222.0001", "2222.0002"] simZ).nodes.length = 1)
    ∧ ((get_session_graph
        [⟨"2222.0002", "other title", "", none, [], "", ([1] : List ℤ), 0, 0⟩]
        "2222.0001" ["2222.0001", "2222.0002"] simZ).nodes.countP
          (fun n => n.is_root) = 0) := by
  decide

/-- Witness for the amended C9 at a concrete build and reload. -/
theorem unique_ids_and_root_flag_witness :
    (((generate_graph_internal .grounding "r" seedMetaX (.ok [⟨"c", some "C title"⟩])
        (fun _ => none) (.error .timeout) (some [[1], [1]]) simZ
        [⟨"c", "old title", "", none, [], "", [1], 0, 0⟩] 5).1.nodes.map
          GraphNode.id).Nodup
      ∧ (∀ n ∈ (generate_graph_internal .grounding "r" seedMetaX
          (.ok [⟨"c", some "C title"⟩]) (fun _ => none) (.error .timeout)
          (some [[1], [1]]) simZ
          [⟨"c", "old title", "", none, [], "", [1], 0, 0⟩] 5).1.nodes,
          (n.is_root = true ↔ n.id = "r"))
      ∧ (generate_graph_internal .grounding "r" seedMetaX
          (.ok [⟨"c", some "C title"⟩]) (fun _ => none) (.error .timeout)
          (some [[1], [1]]) simZ
          [⟨"c", "old title", "", none, [], "", [1], 0, 0⟩] 5).1.nodes.countP
          (fun n => n.is_root) = 1)
    ∧ (((get_session_graph [⟨"c", "t", "", none, [], "", ([1] : List ℤ), 0, 0⟩]
          "c" ["c"] simZ).nodes.map GraphNode.id).Nodup
      ∧ (∀ n ∈ (get_session_graph [⟨"c", "t", "", none, [], "", ([1] : List ℤ), 0, 0⟩]
          "c" ["c"] simZ).nodes, (n.is_root = true ↔ n.id = "c"))
      ∧ (get_session_graph [⟨"c", "t", "", none, [], "", ([1] : List ℤ), 0, 0⟩]
          "c" ["c"] simZ).nodes.countP (fun n => n.is_root)
          = if "c" ∈ ([⟨"c", "t", "", none, [], "", ([1] : List ℤ), 0, 0⟩].filter
              (fun p => decide (p.arxiv_id ∈ ["c"]))).map StoredPaper.arxiv_id
            then 1 else 0) :=
  unique_ids_and_root_flag .grounding "r" seedMetaX (.ok [⟨"c", some "C title"⟩])
    (fun _ => none) (.error .timeout) (some [[1], [1]]) simZ
    [⟨"c", "old title", "", none, [], "", [1], 0, 0⟩] 5
    [⟨"c", "t", "", none, [], "", ([1] : List ℤ), 0, 0⟩] "c" ["c"] simZ
    (by decide)

/-! ## Paper store upserts (C7) -/

theorem upsert_of_not_found {n : GraphNode} {e : List α} {t : ℕ} :
    ∀ {store : List (StoredPaper α)}, storeLookup store n.id = none →
      upsert_graph_paper n e t store = store ++ [freshPaper n e t] := by
  intro store h
  induction store with
  | nil => rfl
  | cons p rest ih =>
    rw [storeLookup] at h
    by_cases hp : p.arxiv_id = n.id
    · rw [if_pos hp] at h
      cases h
    · rw [if_neg hp] at h
      rw [upsert_graph_paper, if_neg hp, ih h]
      rfl

theorem storeLookup_append_right {s1 s2 : List (StoredPaper α)} {k : String}
    (h : storeLookup s1 k = none) :
    storeLookup (s1 ++ s2) k = storeLookup s2 k := by
  induction s1 with
  | nil => rfl
  | cons p rest ih =>
    rw [storeLookup] at h
    by_cases hp : p.arxiv_id = k
    · rw [if_pos hp] at h
      cases h
    · rw [if_neg hp] at h
      rw [List.cons_append, storeLookup, if_neg hp]
      exact ih h

theorem storeLookup_upsert_found {n : GraphNode} {e : List α} {t : ℕ} :
    ∀ {store : List (StoredPaper α)} {p : StoredPaper α},
      storeLookup store n.id = some p →
      storeLookup (upsert_graph_paper n e t store) n.id
        = some { p with
                 title := n.label
                 summary := n.summary
                 url := n.url
                 authors := n.authors
                 published := n.published.getD ""
                 embedding := e
                 updated_at := t } := by
  intro store
  induction store with
  | nil => intro p h; cases h
  | cons q rest ih =>
    intro p h
    rw [storeLookup] at h
    by_cases hq : q.arxiv_id = n.id
    · rw [if_pos hq] at h
      obtain rfl := Option.some.injEq .. ▸ h
      rw [upsert_graph_paper, if_pos hq, storeLookup, if_pos hq]
    · rw [if_neg hq] at h
      rw [upsert_graph_paper, if_neg hq, storeLookup, if_neg hq]
      exact ih h

theorem storeLookup_upsert_frame {n : GraphNode} {e : List α} {t : ℕ}
    {k : String} (hk : k ≠ n.id) :
    ∀ {store : List (StoredPaper α)},
      storeLookup (upsert_graph_paper n e t store) k = storeLookup store k := by
  intro store
  induction store with
  | nil =>
    show storeLookup [freshPaper n e t] k = none
    rw [storeLookup, if_neg (fun heq => hk heq.symm)]
    rfl
  | cons q rest ih =>
    by_cases hq : q.arxiv_id = n.id
    · have hnk : ¬ n.id = k := fun h => hk h.symm
      have hqk : ¬ q.arxiv_id = k := fun heq => hk (heq ▸ hq)
      simp [upsert_graph_paper, storeLookup, hq, hqk, hnk]
    · rw [upsert_graph_paper, if_neg hq]
      by_cases hqk : q.arxiv_id = k
      · rw [storeLookup, storeLookup, if_pos hqk, if_pos hqk]
      · rw [storeLookup, storeLookup, if_neg hqk, if_neg hqk]
        exact ih

/-- C7: the first upsert of an id inserts a document with both timestamps
set to the current time and the given metadata; a subsequent upsert of the
same id overwrites title, summary, url, authors, published and embedding
and bumps only the update timestamp, leaving `created_at` unchanged; all
other ids are untouched. -/
theorem upsert_insert_then_update
    (store : List (StoredPaper α)) (n n2 : GraphNode) (e e2 : List α) (t t2 : ℕ)
    (hfresh : storeLookup store n.id = none) (hid : n2.id = n.id) :
    (storeLookup (upsert_graph_paper n e t store) n.id = some (freshPaper n e t))
    ∧ (storeLookup (upsert_graph_paper n2 e2 t2 (upsert_graph_paper n e t store))
          n.id
        = some { arxiv_id := n.id, title := n2.label, summary := n2.summary,
                 url := n2.url, authors := n2.authors,
                 published := n2.published.getD "", embedding := e2,
                 created_at := t, updated_at := t2 })
    ∧ (∀ k, k ≠ n.id →
        storeLookup (upsert_graph_paper n2 e2 t2 (upsert_graph_paper n e t store)) k
          = storeLookup store k) := by
  have h1 : storeLookup (upsert_graph_paper n e t store) n.id
      = some (freshPaper n e t) := by
    rw [upsert_of_not_found hfresh, storeLookup_append_right hfresh]
    simp [storeLookup, freshPaper]
  refine ⟨h1, ?_, ?_⟩
  · have h2 := @storeLookup_upsert_found _ _ _ _ n2 e2 t2
      (upsert_graph_paper n e t store) (freshPaper n e t)
      (by rw [hid]; exact h1)
    rw [hid] at h2
    exact h2
  · intro k hk
    rw [storeLookup_upsert_frame (hid ▸ hk), storeLookup_upsert_frame hk]

/-- Witness for C7: upserting the same id twice with different titles over
an empty store. -/
theorem upsert_insert_then_update_witness :
    (storeLookup (upsert_graph_paper nodeA ([2] : List ℤ) 1 []) nodeA.id
        = some (freshPaper nodeA [2] 1))
    ∧ (storeLookup (upsert_graph_paper ⟨"1111.0001", "A2", "", none, none, [], "", true⟩
          ([3] : List ℤ) 9 (upsert_graph_paper nodeA [2] 1 [])) nodeA.id
        = some { arxiv_id := nodeA.id, title := "A2", summary := "",
                 url := none, authors := [], published := "", embedding := [3],
                 created_at := 1, updated_at := 9 })
    ∧ (∀ k, k ≠ nodeA.id →
        storeLookup (upsert_graph_paper ⟨"1111.0001", "A2", "", none, none, [], "", true⟩
          ([3] : List ℤ) 9 (upsert_graph_paper nodeA [2] 1 [])) k
          = storeLookup [] k) :=
  upsert_insert_then_update [] nodeA ⟨"1111.0001", "A2", "", none, none, [], "", true⟩
    [2] [3] 1 9 (by decide) (by decide)

/-! ## Session persistence (C6) -/

theorem foldl_applyWrite_rows (ids : List String) (st : PersistState) :
    (ids.map WriteOp.row).foldl applyWrite st
      = ⟨st.sessionWritten, st.rows ++ ids⟩ := by
  induction ids generalizing st with
  | nil => cases st; simp
  | cons i t ih =>
    rw [List.map_cons, List.foldl_cons, ih]
    cases st
    simp [applyWrite]

/-- Counterexample to C6 as stated: with two nodes, a failure of the
second junction-row insert (write index 2) propagates but leaves the
session document and the first junction row committed — neither all
writes nor none. -/
theorem session_persistence_not_atomic :
    ((runPersist ["2301.00001", "2301.00002"] (some 2)).2 = true)
    ∧ ¬ allOrNothing ["2301.00001", "2301.00002"]
        (runPersist ["2301.00001", "2301.00002"] (some 2)).1 := by
  constructor
  · decide
  · unfold allOrNothing
    decide

/-- C6 (amended): session persistence is sequential, not atomic.  When no
write fails, the session and every junction row are committed and no
error propagates.  When write `k` fails the error propagates (exactly when
`k` is within the write sequence) and the prefix before it stays
committed: failing the session insert itself leaves nothing committed,
and failing the `(k+1)`-st write leaves the session plus the first `k`
junction rows committed — so a partial session commit is possible. -/
theorem session_persistence_sequential (nodeIds : List String) :
    (runPersist nodeIds none = (⟨true, nodeIds⟩, false))
    ∧ ((runPersist nodeIds (some 0)).1 = ⟨false, []⟩)
    ∧ (∀ k, (runPersist nodeIds (some (k + 1))).1 = ⟨true, nodeIds.take k⟩)
    ∧ (∀ k, ((runPersist nodeIds (some k)).2 = true ↔ k < nodeIds.length + 1)) := by
  refine ⟨?_, rfl, ?_, ?_⟩
  · show (List.foldl applyWrite ⟨false, []⟩
        (WriteOp.session :: List.map WriteOp.row nodeIds), false)
      = ((⟨true, nodeIds⟩ : PersistState), false)
    rw [List.foldl_cons,
      show applyWrite ⟨false, []⟩ WriteOp.session = ⟨true, []⟩ from rfl,
      foldl_applyWrite_rows]
    rfl
  · intro k
    show (List.foldl applyWrite ⟨false, []⟩
        (List.take (k + 1) (WriteOp.session :: List.map WriteOp.row nodeIds)))
      = (⟨true, nodeIds.take k⟩ : PersistState)
    rw [List.take_succ_cons, List.foldl_cons,
      show applyWrite ⟨false, []⟩ WriteOp.session = ⟨true, []⟩ from rfl,
      ← List.map_take, foldl_applyWrite_rows]
    simp
  · intro k
    show decide (k < (WriteOp.session :: List.map WriteOp.row nodeIds).length) = true
        ↔ k < nodeIds.length + 1
    simp

/-! ## Lemmas: the link builder depends only on node ids -/

theorem nodeIdAt_congr {nodes1 nodes2 : List GraphNode}
    (h : nodes1.map GraphNode.id = nodes2.map GraphNode.id) (j : ℕ) :
    nodeIdAt nodes1 j = nodeIdAt nodes2 j := by
  unfold nodeIdAt
  have h1 : nodes1[j]?.map GraphNode.id = nodes2[j]?.map GraphNode.id := by
    rw [← List.getElem?_map, ← List.getElem?_map, h]
  rw [h1]

theorem filterMap_enumFrom_congr {β γ δ : Type} (key : β → δ)
    (g : ℕ → δ → Option γ) :
    ∀ (n : ℕ) (l1 l2 : List β), l1.map key = l2.map key →
      (List.enumFrom n l1).filterMap (fun p => g p.1 (key p.2))
        = (List.enumFrom n l2).filterMap (fun p => g p.1 (key p.2)) := by
  intro n l1
  induction l1 generalizing n with
  | nil =>
    intro l2 h
    cases l2 with
    | nil => rfl
    | cons b t2 => simp at h
  | cons a t ih =>
    intro l2 h
    cases l2 with
    | nil => simp at h
    | cons b t2 =>
      simp only [List.map_cons, List.cons.injEq] at h
      obtain ⟨hid, hrest⟩ := h
      rw [show List.enumFrom n (a :: t) = (n, a) :: List.enumFrom (n + 1) t from rfl,
          show List.enumFrom n (b :: t2) = (n, b) :: List.enumFrom (n + 1) t2 from rfl,
          List.filterMap_cons, List.filterMap_cons]
      simp only []
      rw [hid, ih (n + 1) t2 hrest]

theorem simsFor_congr (simf : List α → List α → α) (m : EmbMap α)
    {l1 l2 : List GraphNode}
    (h : l1.map GraphNode.id = l2.map GraphNode.id) (i : ℕ) (ea : List α) :
    simsFor simf m l1 i ea = simsFor simf m l2 i ea := by
  unfold simsFor
  exact filterMap_enumFrom_congr GraphNode.id
    (fun j d =>
      if j = i then none
      else
        match embLookup m d with
        | none => none
        | some eb => some (j, simf ea eb)) 0 l1 l2 h

theorem selects_congr (simf : List α → List α → α) (m : EmbMap α)
    {l1 l2 : List GraphNode}
    (h : l1.map GraphNode.id = l2.map GraphNode.id) (i : ℕ) (ea : List α) :
    selects simf m l1 i ea = selects simf m l2 i ea := by
  unfold selects
  rw [simsFor_congr simf m h i ea]

theorem selStep_congr {l1 l2 : List GraphNode}
    (h : l1.map GraphNode.id = l2.map GraphNode.id) (aid : String) :
    @selStep α _ _ _ l1 aid = @selStep α _ _ _ l2 aid := by
  funext st q
  unfold selStep
  rw [nodeIdAt_congr h]

theorem foldl_nodeStep_enum_congr (simf : List α → List α → α) (m : EmbMap α)
    {nodes1 nodes2 : List GraphNode}
    (hids : nodes1.map GraphNode.id = nodes2.map GraphNode.id) :
    ∀ (n : ℕ) (l1 l2 : List GraphNode), l1.map GraphNode.id = l2.map GraphNode.id →
      ∀ st, (List.enumFrom n l1).foldl (nodeStep simf m nodes1) st
        = (List.enumFrom n l2).foldl (nodeStep simf m nodes2) st := by
  intro n l1
  induction l1 generalizing n with
  | nil =>
    intro l2 h st
    cases l2 with
    | nil => rfl
    | cons b t2 => simp at h
  | cons a t ih =>
    intro l2 h st
    cases l2 with
    | nil => simp at h
    | cons b t2 =>
      simp only [List.map_cons, List.cons.injEq] at h
      obtain ⟨hid, hrest⟩ := h
      rw [show List.enumFrom n (a :: t) = (n, a) :: List.enumFrom (n + 1) t from rfl,
          show List.enumFrom n (b :: t2) = (n, b) :: List.enumFrom (n + 1) t2 from rfl,
          List.foldl_cons, List.foldl_cons]
      have hstep : nodeStep simf m nodes1 st (n, a) = nodeStep simf m nodes2 st (n, b) := by
        unfold nodeStep
        show (match embLookup m a.id with
            | none => st
            | some ea => (selects simf m nodes1 n ea).foldl (selStep nodes1 a.id) st)
          = (match embLookup m b.id with
            | none => st
            | some ea => (selects simf m nodes2 n ea).foldl (selStep nodes2 b.id) st)
        rw [hid]
        cases embLookup m b.id with
        | none => rfl
        | some ea =>
          show (selects simf m nodes1 n ea).foldl (selStep nodes1 b.id) st
            = (selects simf m nodes2 n ea).foldl (selStep nodes2 b.id) st
          rw [selects_congr simf m hids, selStep_congr hids]
      rw [hstep, ih (n + 1) t2 hrest]

theorem buildLinks_congr (simf : List α → List α → α) (m : EmbMap α)
    {nodes1 nodes2 : List GraphNode}
    (h : nodes1.map GraphNode.id = nodes2.map GraphNode.id) :
    buildLinks simf m nodes1 = buildLinks simf m nodes2 := by
  unfold buildLinks linkFold
  by_cases hm : m.isEmpty
  · rw [if_pos hm, if_pos hm]
  · rw [if_neg hm, if_neg hm]
    exact congrArg Prod.fst
      (foldl_nodeStep_enum_congr simf m h 0 nodes1 nodes2 h
        (([], []) : List (GraphLink α) × List (String × String)))

/-! ## Lemmas: upserting fresh papers appends them in order -/

theorem storeLookup_eq_none {store : List (StoredPaper α)} {k : String}
    (h : ∀ p ∈ store, p.arxiv_id ≠ k) : storeLookup store k = none := by
  induction store with
  | nil => rfl
  | cons p rest ih =>
    rw [storeLookup, if_neg (h p (List.mem_cons_self p rest))]
    exact ih (fun q hq => h q (List.mem_cons_of_mem p hq))

theorem upsert_fold_fresh (now : ℕ) :
    ∀ (pairs : List (GraphNode × List α)) (store : List (StoredPaper α)),
      (∀ p ∈ store, p.arxiv_id ∉ pairs.map (fun q => q.1.id)) →
      (pairs.map (fun q => q.1.id)).Nodup →
      pairs.foldl (fun s q => upsert_graph_paper q.1 q.2 now s) store
        = store ++ pairs.map (fun q => freshPaper q.1 q.2 now) := by
  intro pairs
  induction pairs with
  | nil =>
    intro store h1 h2
    simp
  | cons q rest ih =>
    intro store h1 h2
    rw [List.foldl_cons]
    have hnone : storeLookup store q.1.id = none := by
      apply storeLookup_eq_none
      intro p hp heq
      exact h1 p hp (by rw [List.map_cons, heq]; exact List.mem_cons_self _ _)
    show rest.foldl (fun s q => upsert_graph_paper q.1 q.2 now s)
        (upsert_graph_paper q.1 q.2 now store) = _
    rw [upsert_of_not_found hnone]
    rw [List.map_cons] at h2
    obtain ⟨hqnotin, hrestnodup⟩ := List.nodup_cons.mp h2
    have hcond : ∀ p ∈ store ++ [freshPaper q.1 q.2 now],
        p.arxiv_id ∉ rest.map (fun q => q.1.id) := by
      intro p hp
      rcases List.mem_append.mp hp with hp | hp
      · intro hmem
        exact h1 p hp (by rw [List.map_cons]; exact List.mem_cons_of_mem _ hmem)
      · rw [List.mem_singleton.mp hp]
        exact hqnotin
    rw [ih (store ++ [freshPaper q.1 q.2 now]) hcond hrestnodup, List.append_assoc]
    rfl

/-! ## Session reload (C4) -/

theorem get_session_graph_links (store : List (StoredPaper α)) (sid : String)
    (mids : List String) (simf : List α → List α → α) :
    (get_session_graph store sid mids simf).links
      = buildLinks simf
          ((store.filter (fun p => decide (p.arxiv_id ∈ mids))).foldl
            (fun m p => dictInsert m p.arxiv_id p.embedding) [])
          ((store.filter (fun p => decide (p.arxiv_id ∈ mids))).map
            (storedNode sid)) := rfl

/-- Counterexample to C4 as stated: in `buildX` the candidate paper `c`
was already in the paper store, so on reload the store (and hence the
rebuilt node list) presents `c` before the seed `r`; the dedup loop then
emits the pair with swapped source and target, and the reloaded link list
differs from the build link list. -/
theorem session_reload_counterexample :
    buildX.1.links = [⟨"r", "c", 1⟩]
    ∧ (get_session_graph buildX.2 "r" (buildX.1.nodes.map GraphNode.id) simZ).links
        = [⟨"c", "r", 1⟩]
    ∧ (get_session_graph buildX.2 "r" (buildX.1.nodes.map GraphNode.id) simZ).links
        ≠ buildX.1.links := by
  decide

/-- C4 (amended): for a build in which every node received an embedding
and none of the build's paper ids was already present in the paper store,
reloading the session (computing purely from the stored papers, with the
session's member ids and stored seed id) returns a link list identical to
the original build's link list. -/
theorem session_reload_reproduces_links
    (mode : Mode) (paper_id : String) (seed : PaperMeta)
    (groundRes : Except String (List DiscCand))
    (metaMap : String → Option PaperMeta)
    (refRes : Except RefExc (List RefEntry))
    (embs : List (List α)) (simf : List α → List α → α)
    (store : List (StoredPaper α)) (now : ℕ)
    (hlen : embs.length = (generate_graph_internal mode paper_id seed groundRes
        metaMap refRes (some embs) simf store now).1.nodes.length)
    (hfresh : ∀ p ∈ store, p.arxiv_id ∉ (generate_graph_internal mode paper_id
        seed groundRes metaMap refRes (some embs) simf store
        now).1.nodes.map GraphNode.id) :
    (get_session_graph
        (generate_graph_internal mode paper_id seed groundRes metaMap refRes
          (some embs) simf store now).2
        paper_id
        ((generate_graph_internal mode paper_id seed groundRes metaMap refRes
          (some embs) simf store now).1.nodes.map GraphNode.id)
        simf).links
      = (generate_graph_internal mode paper_id seed groundRes metaMap refRes
          (some embs) simf store now).1.links := by
  have hnd : ((generate_graph_internal mode paper_id seed groundRes metaMap
      refRes (some embs) simf store now).1.nodes.map GraphNode.id).Nodup :=
    (generate_nodes_shape mode paper_id seed groundRes metaMap refRes
      (some embs) simf store now).1
  revert hlen hfresh hnd
  generalize hN : (generate_graph_internal mode paper_id seed groundRes metaMap
      refRes (some embs) simf store now).1.nodes = nodes
  intro hlen hfresh hnd
  -- the components of the build, by definitional unfolding
  have hlinks : (generate_graph_internal mode paper_id seed groundRes metaMap
      refRes (some embs) simf store now).1.links
      = buildLinks simf (buildEmbMap nodes embs) nodes := by
    rw [← hN]
    rfl
  have hstore2 : (generate_graph_internal mode paper_id seed groundRes metaMap
      refRes (some embs) simf store now).2
      = (nodes.zip embs).foldl (fun s p => upsert_graph_paper p.1 p.2 now s) store := by
    rw [← hN]
    rfl
  -- the zipped pairs cover all nodes
  have hfst : (nodes.zip embs).map Prod.fst = nodes :=
    List.map_fst_zip nodes embs (le_of_eq hlen.symm)
  have hpairids : (nodes.zip embs).map (fun q => q.1.id) = nodes.map GraphNode.id := by
    have : (nodes.zip embs).map (fun q => q.1.id)
        = ((nodes.zip embs).map Prod.fst).map GraphNode.id := by
      rw [List.map_map]
      rfl
    rw [this, hfst]
  -- the store after the build is the old store plus the fresh papers in order
  have hupserts : (nodes.zip embs).foldl
      (fun s p => upsert_graph_paper p.1 p.2 now s) store
      = store ++ (nodes.zip embs).map (fun q => freshPaper q.1 q.2 now) := by
    apply upsert_fold_fresh
    · intro p hp
      rw [hpairids]
      exact hfresh p hp
    · rw [hpairids]
      exact hnd
  -- the documents the reload query returns are exactly the fresh papers
  have hdocs : (store ++ (nodes.zip embs).map (fun q => freshPaper q.1 q.2 now)).filter
        (fun p => decide (p.arxiv_id ∈ nodes.map GraphNode.id))
      = (nodes.zip embs).map (fun q => freshPaper q.1 q.2 now) := by
    rw [List.filter_append]
    have h1 : store.filter (fun p => decide (p.arxiv_id ∈ nodes.map GraphNode.id))
        = [] := by
      rw [List.filter_eq_nil_iff]
      intro p hp
      simp only [decide_eq_true_eq]
      exact hfresh p hp
    have h2 : ((nodes.zip embs).map (fun q => freshPaper q.1 q.2 now)).filter
          (fun p => decide (p.arxiv_id ∈ nodes.map GraphNode.id))
        = (nodes.zip embs).map (fun q => freshPaper q.1 q.2 now) := by
      rw [List.filter_eq_self]
      intro p hp
      obtain ⟨q, hq, rfl⟩ := List.mem_map.mp hp
      simp only [decide_eq_true_eq]
      show q.1.id ∈ nodes.map GraphNode.id
      rw [← hpairids]
      exact List.mem_map_of_mem _ hq
    rw [h1, h2, List.nil_append]
  -- the rebuilt node list has the same ids in the same order
  have hnodes2 : (((nodes.zip embs).map (fun q => freshPaper q.1 q.2 now)).map
        (storedNode paper_id)).map GraphNode.id = nodes.map GraphNode.id := by
    rw [List.map_map, List.map_map]
    exact hpairids
  -- the rebuilt embedding map is the build's embedding map
  have hm2 : ((nodes.zip embs).map (fun q => freshPaper q.1 q.2 now)).foldl
      (fun m p => dictInsert m p.arxiv_id p.embedding) []
      = buildEmbMap nodes embs := by
    rw [List.foldl_map]
    rfl
  rw [hlinks, hstore2, hupserts, get_session_graph_links, hdocs, hm2]
  exact buildLinks_congr simf (buildEmbMap nodes embs) hnodes2

/-- Witness for the amended C4: a concrete grounding build against an
empty store, reloaded. -/
theorem session_reload_reproduces_links_witness :
    (get_session_graph
        (generate_graph_internal .grounding "r" seedMetaX (.ok [⟨"c", some "C title"⟩])
          (fun _ => none) (.error .timeout) (some [[1], [1]]) simZ [] 5).2
        "r"
        ((generate_graph_internal .grounding "r" seedMetaX (.ok [⟨"c", some "C title"⟩])
          (fun _ => none) (.error .timeout) (some [[1], [1]]) simZ [] 5).1.nodes.map
          GraphNode.id)
        simZ).links
      = (generate_graph_internal .grounding "r" seedMetaX (.ok [⟨"c", some "C title"⟩])
          (fun _ => none) (.error .timeout) (some [[1], [1]]) simZ [] 5).1.links :=
  session_reload_reproduces_links .grounding "r" seedMetaX (.ok [⟨"c", some "C title"⟩])
    (fun _ => none) (.error .timeout) [[1], [1]] simZ [] 5 (by decide) (by decide)

/-! ## Cosine similarity (C3) -/

theorem dotP_self_nonneg (u : List ℝ) : 0 ≤ dotP u u := by
  induction u with
  | nil => simp [dotP]
  | cons a t ih =>
    have hsplit : dotP (a :: t) (a :: t) = a * a + dotP t t := by
      simp [dotP]
    rw [hsplit]
    exact add_nonneg (mul_self_nonneg a) ih

theorem dotP_self_pos {u : List ℝ} (h : ∃ x ∈ u, x ≠ 0) : 0 < dotP u u := by
  induction u with
  | nil =>
    obtain ⟨x, hx, -⟩ := h
    cases hx
  | cons a t ih =>
    have hsplit : dotP (a :: t) (a :: t) = a * a + dotP t t := by
      simp [dotP]
    rw [hsplit]
    obtain ⟨x, hx, hxne⟩ := h
    rcases List.mem_cons.mp hx with rfl | hx'
    · have h1 : 0 < x * x := mul_self_pos.mpr hxne
      have h2 := dotP_self_nonneg t
      linarith
    · have h1 := ih ⟨x, hx', hxne⟩
      have h2 := mul_self_nonneg a
      linarith

theorem dotP_self_zero {u : List ℝ} (h : ∀ x ∈ u, x = 0) : dotP u u = 0 := by
  induction u with
  | nil => simp [dotP]
  | cons a t ih =>
    have hsplit : dotP (a :: t) (a :: t) = a * a + dotP t t := by
      simp [dotP]
    rw [hsplit, h a (List.mem_cons_self a t),
      ih (fun x hx => h x (List.mem_cons_of_mem a hx))]
    ring

/-- C3: cosine similarity equals the dot product divided by the product of
the norms when both norms are nonzero, and is zero when either norm is
zero (total, so no exception and no NaN); orthogonal vectors give 0,
identical non-zero vectors give 1, and a zero vector against anything
gives 0 on either side. -/
theorem cosine_similarity_spec (u v : List ℝ) :
    ((Real.sqrt (dotP u u) = 0 ∨ Real.sqrt (dotP v v) = 0) →
        cosine_similarity u v = 0)
    ∧ (Real.sqrt (dotP u u) ≠ 0 → Real.sqrt (dotP v v) ≠ 0 →
        cosine_similarity u v
          = dotP u v / (Real.sqrt (dotP u u) * Real.sqrt (dotP v v)))
    ∧ (dotP u v = 0 → cosine_similarity u v = 0)
    ∧ ((∃ x ∈ u, x ≠ 0) → cosine_similarity u u = 1)
    ∧ ((∀ x ∈ u, x = 0) →
        cosine_similarity u v = 0 ∧ cosine_similarity v u = 0) := by
  refine ⟨?_, ?_, ?_, ?_, ?_⟩
  · intro h
    unfold cosine_similarity
    rw [if_pos h]
  · intro h1 h2
    unfold cosine_similarity
    rw [if_neg (by push_neg; exact ⟨h1, h2⟩)]
  · intro h
    unfold cosine_similarity
    by_cases hz : Real.sqrt (dotP u u) = 0 ∨ Real.sqrt (dotP v v) = 0
    · rw [if_pos hz]
    · rw [if_neg hz, h, zero_div]
  · intro h
    have hpos := dotP_self_pos h
    have hsq : Real.sqrt (dotP u u) ≠ 0 := by
      rw [Real.sqrt_ne_zero']
      exact hpos
    unfold cosine_similarity
    rw [if_neg (by push_neg; exact ⟨hsq, hsq⟩)]
    rw [Real.mul_self_sqrt (le_of_lt hpos)]
    exact div_self (ne_of_gt hpos)
  · intro h
    have hz : Real.sqrt (dotP u u) = 0 := by
      rw [dotP_self_zero h, Real.sqrt_zero]
    constructor
    · unfold cosine_similarity
      rw [if_pos (Or.inl hz)]
    · unfold cosine_similarity
      rw [if_pos (Or.inr hz)]

/-- Witness for C3: orthogonal vectors, identical non-zero vectors, and a
zero vector. -/
theorem cosine_similarity_spec_witness :
    cosine_similarity [1, 0] [0, 1] = 0
    ∧ cosine_similarity [1] [1] = 1
    ∧ cosine_similarity [0] [5] = 0 :=
  ⟨(cosine_similarity_spec [1, 0] [0, 1]).2.2.1 (by simp [dotP]),
   (cosine_similarity_spec [1] [1]).2.2.2.1 ⟨1, by simp, one_ne_zero⟩,
   ((cosine_similarity_spec [0] [5]).2.2.2.2 (by simp)).1⟩

/-! ## Canonicalization (C8) -/

theorem trimTrail_eq : ∀ l : List Char,
    trimTrail l = (l.reverse.dropWhile Char.isWhitespace).reverse
  | [] => rfl
  | c :: rest => by
    have IH := trimTrail_eq rest
    rw [trimTrail, List.reverse_cons, List.dropWhile_append]
    cases htr : trimTrail rest with
    | nil =>
      have hnil : rest.reverse.dropWhile Char.isWhitespace = [] :=
        List.reverse_eq_nil_iff.mp (by rw [← IH, htr])
      rw [hnil]
      show (if c.isWhitespace then [] else [c])
        = (if (List.isEmpty ([] : List Char)) = true then
            List.dropWhile Char.isWhitespace [c]
          else ([] : List Char) ++ [c]).reverse
      cases hc : c.isWhitespace <;> simp [List.dropWhile, hc]
    | cons r0 rs =>
      have hne : rest.reverse.dropWhile Char.isWhitespace ≠ [] := by
        intro h0
        rw [IH, h0] at htr
        cases htr
      have hcond : ¬ ((rest.reverse.dropWhile Char.isWhitespace).isEmpty = true) := by
        simp only [List.isEmpty_iff]
        exact hne
      rw [if_neg hcond]
      show c :: r0 :: rs = (rest.reverse.dropWhile Char.isWhitespace ++ [c]).reverse
      rw [List.reverse_append, show ([c] : List Char).reverse = [c] from rfl,
        ← IH, htr]
      rfl

theorem trimTrail_trimLead_eq (l : List Char) :
    trimTrail (trimLead l) = stripChars l := by
  rw [trimTrail_eq]
  rfl

theorem dropTrailSlashes_eq : ∀ l : List Char,
    dropTrailSlashes l = rstripSlash l
  | [] => rfl
  | c :: rest => by
    have IH := dropTrailSlashes_eq rest
    rw [dropTrailSlashes]
    unfold rstripSlash
    rw [List.reverse_cons, List.dropWhile_append]
    cases htr : dropTrailSlashes rest with
    | nil =>
      have hnil : rest.reverse.dropWhile (fun c => c == '/') = [] :=
        List.reverse_eq_nil_iff.mp (by rw [show (rest.reverse.dropWhile
          (fun c => c == '/')).reverse = rstripSlash rest from rfl, ← IH, htr])
      rw [hnil]
      show (if c = '/' then [] else [c])
        = (if (List.isEmpty ([] : List Char)) = true then
            List.dropWhile (fun c => c == '/') [c]
          else ([] : List Char) ++ [c]).reverse
      by_cases hc : c = '/'
      · simp [List.dropWhile, hc]
      · have hb : (c == '/') = false := by simp [hc]
        simp [List.dropWhile, hc, hb]
    | cons r0 rs =>
      have hne : rest.reverse.dropWhile (fun c => c == '/') ≠ [] := by
        intro h0
        have : rstripSlash rest = [] := by
          unfold rstripSlash
          rw [h0]
          rfl
        rw [IH, this] at htr
        cases htr
      have hcond : ¬ ((rest.reverse.dropWhile (fun c => c == '/')).isEmpty = true) := by
        simp only [List.isEmpty_iff]
        exact hne
      rw [if_neg hcond]
      show c :: r0 :: rs
        = (rest.reverse.dropWhile (fun c => c == '/') ++ [c]).reverse
      rw [List.reverse_append, show ([c] : List Char).reverse = [c] from rfl]
      rw [show (rest.reverse.dropWhile (fun c => c == '/')).reverse
        = rstripSlash rest from rfl, ← IH, htr]
      rfl

/-- Counterexample to C8 as stated: the `/pdf/` branch of the source uses
`replace(".pdf", "")`, which deletes every occurrence of `.pdf`, not just
a trailing suffix; on `a/pdf/1.pdf2.pdf` the source yields `12` while the
claimed rules yield `1.pdf2`. -/
theorem canonicalize_claim_counterexample :
    canonicalize_paper_id "a/pdf/1.pdf2.pdf".data = "12".data
    ∧ canonClaim "a/pdf/1.pdf2.pdf".data = "1.pdf2".data
    ∧ canonicalize_paper_id "a/pdf/1.pdf2.pdf".data
        ≠ canonClaim "a/pdf/1.pdf2.pdf".data := by
  decide

/-- C8 (amended): `canonicalize_paper_id` first trims surrounding
whitespace; then, in order: after an `/abs/` segment it takes everything
after the last occurrence and drops all trailing slashes, otherwise after
a `/pdf/` segment it takes everything after the last occurrence and
deletes every occurrence of `.pdf`; strips a case-insensitive `arxiv:`
prefix; drops a final `vN` with a nonempty base and `N` nonempty
all-digits; and trims whitespace again — in particular the four spec
examples hold, and an input to which no rule applies is returned with at
most surrounding whitespace removed. -/
theorem canonicalize_amended_rules :
    (∀ value : List Char, canonicalize_paper_id value = canonAmended value)
    ∧ canonicalize_paper_id "arXiv:1706.03762v5".data = "1706.03762".data
    ∧ canonicalize_paper_id "https://arxiv.org/abs/2301.12345/".data
        = "2301.12345".data
    ∧ canonicalize_paper_id "https://arxiv.org/pdf/1706.03762.pdf".data
        = "1706.03762".data
    ∧ canonicalize_paper_id "1706.03762".data = "1706.03762".data := by
  refine ⟨?_, by decide, by decide, by decide, by decide⟩
  intro value
  simp only [canonicalize_paper_id, canonAmended, extract_paper_id,
    trimTrail_trimLead_eq, dropTrailSlashes_eq]

end ArxivGraph
